import Mathlib

/-!
# The catalog of packages and tools and its dependency resolver (`cores/status.go`)

A shallow embedding of `src/cores/status.go` of arduino-cli.

Conventions of the embedding:

* a Go `map[string]*V` is a `GoMap V`: the list of its entries, looked up by exact key
  equality. The order of the list stands for the order in which `range` visits the
  entries, which Go leaves unspecified. Maps are allocated (`make`) and the stored
  pointers are not nil, as `extractPackage` builds them;
* a Go result pair `(*T, error)` or `([]T, error)` is a pair of options: `none` in the
  first component is the nil pointer or the nil slice, `none` in the second is the nil
  error, and `some msg` is the error whose text is `msg`;
* a `*Release` argument is an `Option Release`, `none` being nil;
* the case table of the Go library (`unicode.ToLower`) is the parameter `lower` of the
  sort and of `Names`.
-/

namespace cores

/-! ## Go maps -/

/-- Entries of a Go map with string keys. -/
abbrev GoMap (V : Type) : Type := List (String × V)

namespace GoMap

/-- Comma-ok lookup `v, exists := m[k]`: `some v` when the key is present. -/
def get {V : Type} : GoMap V → String → Option V
  | [], _ => none
  | (k', v) :: rest, k => if k' = k then some v else get rest k

/-- Assignment `m[k] = v`: any entry under `k` is dropped, then the new one is stored. -/
def set {V : Type} (m : GoMap V) (k : String) (v : V) : GoMap V :=
  (k, v) :: m.filter (fun e => decide (e.1 ≠ k))

/-- Keys in the order `for n := range m` visits them. -/
def keys {V : Type} (m : GoMap V) : List String :=
  m.map Prod.fst

/-- Entries of a map as Go builds them: no key occurs twice. -/
def WF {V : Type} (m : GoMap V) : Prop :=
  m.keys.Nodup

end GoMap

/-! ## Data model

The type declarations are in files of the package other than `status.go`; the fields
are those `status.go` reads. -/

/-- Modelled from the spec: the declaration of `ToolRelease` (one installable version of
a tool: a version string plus download metadata, here the names of its flavours). -/
structure ToolRelease where
  Version : String
  Flavours : List String
  deriving DecidableEq, Repr

/-- Modelled from the spec: the declaration of `Tool` (a name and a mapping from version
string to release). -/
structure Tool where
  Name : String
  Releases : GoMap ToolRelease
  deriving DecidableEq, Repr

/-- Modelled from the spec: the declaration of `Package` (a name and a mapping from tool
name to tool). -/
structure Package where
  Name : String
  Tools : GoMap Tool
  deriving DecidableEq, Repr

/-- Modelled from the spec: the declaration of `toolDependency`, a dependency edge by
value (packager name, tool name, tool version). -/
structure toolDependency where
  ToolPackager : String
  ToolName : String
  ToolVersion : String
  deriving DecidableEq, Repr

/-- Modelled from the spec: the declaration of the core `Release` (a version and the
sequence of declared dependency edges). -/
structure Release where
  Version : String
  Dependencies : List toolDependency
  deriving DecidableEq, Repr

/-- Modelled from the spec: the declaration of `indexPackage` and its method
`extractPackage`; a raw package descriptor is opaque beyond exposing a name and an
extraction step that yields a `Package`. Nothing relates the two fields. -/
structure indexPackage where
  Name : String
  extractPackage : Package
  deriving DecidableEq, Repr

/-- Modelled from the spec: the declaration of `Index`, the sequence of raw package
descriptors. -/
structure Index where
  Packages : List indexPackage
  deriving DecidableEq, Repr

/-- StatusContext represents the Context of the Cores and Tools in the system. -/
structure StatusContext where
  Packages : GoMap Package
  deriving DecidableEq, Repr

/-- CoreDependency is a representation of a parsed core dependency (single ToolRelease). -/
structure CoreDependency where
  ToolName : String
  Release : ToolRelease
  deriving DecidableEq, Repr

/-! ## Case-insensitive sort (`sortutil.CiAsc`)

The sort lowercases with `strings.ToLower`, which applies the case table
`unicode.ToLower` of the Go library to every character. The table is not part of the
program: it is the parameter `lower` of the definitions below, and the theorems hold
for every table. -/

/-- Go's `strings.ToLower`: the case table `lower` (`unicode.ToLower`) applied to every
character of the string. -/
def ToLower (lower : Char → Char) (s : String) : String :=
  String.mk (s.data.map lower)

/-- Modelled from the spec: the comparison of the case-insensitive ascending sort,
`strings.ToLower(a) < strings.ToLower(b)`, strings being compared character by
character. -/
def ciLess (lower : Char → Char) (a b : String) : Bool :=
  decide ((ToLower lower a).data < (ToLower lower b).data)

/-- Modelled from the spec: inner loop of the sort. The element `x` stands right after
the sorted prefix, given here last element first, and is swapped leftwards while it is
less than its left neighbour. -/
def CiAsc.sink (lower : Char → Char) (x : String) : List String → List String
  | [] => [x]
  | y :: ys => if ciLess lower x y then y :: CiAsc.sink lower x ys else x :: y :: ys

/-- Modelled from the spec: `sortutil.CiAsc` (package `github.com/pmylund/sortutil`, not in
src), the case-insensitive ascending sort of a slice of strings: an insertion sort,
as `sort.Sort` runs on short slices, with the comparison `ciLess`. -/
def CiAsc (lower : Char → Char) (xs : List String) : List String :=
  (xs.foldl (fun sortedRev x => CiAsc.sink lower x sortedRev) []).reverse

/-- Case table of the concrete catalogs below: `unicode.ToLower` on the code points
below U+0100, where the letters `A` to `Z`, `À` to `Ö` and `Ø` to `Þ` map 32 code
points up and every other character maps to itself. The names of those catalogs are
made of such characters. -/
def latin1ToLower (c : Char) : Char :=
  let n := c.toNat
  if (65 ≤ n ∧ n ≤ 90) ∨ (192 ≤ n ∧ n ≤ 222 ∧ n ≠ 215) then Char.ofNat (n + 32) else c

/-! ## Formatting (`fmt.Sprintln`, `strings.TrimSpace`) -/

/-- Operands of `fmt.Sprintln` that are strings, with one space between every two. -/
def Sprintln.join : List String → String
  | [] => ""
  | [a] => a
  | a :: b :: rest => a ++ " " ++ Sprintln.join (b :: rest)

/-- Go's `fmt.Sprintln` on string operands: spaces are always added between operands
and a newline is appended. -/
def Sprintln (operands : List String) : String :=
  Sprintln.join operands ++ "\n"

/-- Go's `unicode.IsSpace`: tab, line feed, vertical tab, form feed, carriage return,
space, U+0085, U+00A0, and the other characters with the White Space property. -/
def isSpace (c : Char) : Bool :=
  let n := c.toNat
  (decide (9 ≤ n) && decide (n ≤ 13)) || n == 32 || n == 0x85 || n == 0xA0 || n == 0x1680 ||
    (decide (0x2000 ≤ n) && decide (n ≤ 0x200A)) || n == 0x2028 || n == 0x2029 ||
    n == 0x202F || n == 0x205F || n == 0x3000

/-- Characters of a string after `strings.TrimSpace`: the white space at both ends is
dropped. -/
def trimSpaceChars (l : List Char) : List Char :=
  ((l.dropWhile isSpace).reverse.dropWhile isSpace).reverse

/-- Go's `strings.TrimSpace`. -/
def TrimSpace (s : String) : String :=
  String.mk (trimSpaceChars s.data)

/-- Substring test `strings.Contains(msg, name)`: the message holds the name. -/
def mentions (msg name : String) : Bool :=
  decide (name.data <:+: msg.data)

/-! ## Operations of `status.go` -/

/-- Rendering of a core dependency: `strings.TrimSpace(fmt.Sprintln(cd.ToolName, " v.",
cd.Release.Version))`. -/
def CoreDependency.String (cd : CoreDependency) : String :=
  TrimSpace (Sprintln [cd.ToolName, " v.", cd.Release.Version])

/-- Add adds a package to a context from an indexPackage; an entry already under that
name is overwritten. -/
def StatusContext.Add (sc : StatusContext) (p : indexPackage) : StatusContext :=
  { Packages := sc.Packages.set p.Name p.extractPackage }

/-- Loop of `Names`: the keys, in the order `range` visits them, are stored in `res` at
the indices `i`, `i + 1`, and so on. -/
def Names.fill : List String → Nat → List String → List String
  | [], _, res => res
  | n :: rest, i, res => Names.fill rest (i + 1) (res.set i n)

/-- Names returns the array containing the name of the packages: a slice of
`len(sc.Packages)` empty strings is filled with the keys and sorted by `CiAsc`, which
lowercases with the case table `lower`. -/
def StatusContext.Names (sc : StatusContext) (lower : Char → Char) : List String :=
  CiAsc lower (Names.fill sc.Packages.keys 0 (List.replicate sc.Packages.length ""))

/-- Lookup of the tool of a dependency: package first, then tool. -/
def toolDependency.extractTool (tdep : toolDependency) (sc : StatusContext) :
    Option Tool × Option String :=
  match sc.Packages.get tdep.ToolPackager with
  | none => (none, some "Package not found")
  | some pkg =>
    match pkg.Tools.get tdep.ToolName with
    | none => (none, some "Tool not found")
    | some tool => (some tool, none)

/-- Lookup of the release of a dependency: `extractTool`, then the version. -/
def toolDependency.extractRelease (tdep : toolDependency) (sc : StatusContext) :
    Option ToolRelease × Option String :=
  match tdep.extractTool sc with
  | (_, some err) => (none, some err)
  | (some tool, none) =>
    match tool.Releases.get tdep.ToolVersion with
    | none => (none, some "Release Not Found")
    | some release => (some release, none)
  -- a nil tool with a nil error: `extractTool` never returns it
  | (none, none) => (none, none)

/-- Body of the loop of `GetDeps` over the dependencies that remain, `ret` being the
slice built so far. -/
def GetDeps.loop (sc : StatusContext) :
    List toolDependency → List CoreDependency → Option (List CoreDependency) × Option String
  | [], ret => (some ret, none)
  | dep :: rest, ret =>
    match sc.Packages.get dep.ToolPackager with
    | none => (none, some ("Package " ++ dep.ToolPackager ++ " not found"))
    | some pkg =>
      match pkg.Tools.get dep.ToolName with
      | none => (none, some ("Tool " ++ dep.ToolName ++ " not found"))
      | some tool =>
        match tool.Releases.get dep.ToolVersion with
        | none => (none, some ("Tool version " ++ dep.ToolVersion ++ " not found"))
        | some toolRelease =>
          GetDeps.loop sc rest (ret ++ [{ ToolName := dep.ToolName, Release := toolRelease }])

/-- GetDeps returns the deps of a specified release of a core. -/
def StatusContext.GetDeps (sc : StatusContext) :
    Option Release → Option (List CoreDependency) × Option String
  | none => (none, some "release cannot be nil")
  | some release => GetDeps.loop sc release.Dependencies []

/-- CreateStatusContext creates a status context from index data. -/
def Index.CreateStatusContext (index : Index) : StatusContext × Option String :=
  (index.Packages.foldl (fun packages packageManager => packages.Add packageManager)
    { Packages := [] }, none)

/-! ## Vocabulary of the specification -/

/-- Path lookup `Packages[packager].Tools[toolName].Releases[toolVersion]` in the
catalog, in the words of the specification: the release stored under the triple of the
dependency, if the three keys are present. -/
def storedRelease (sc : StatusContext) (d : toolDependency) : Option ToolRelease :=
  (sc.Packages.get d.ToolPackager).bind fun pkg =>
    (pkg.Tools.get d.ToolName).bind fun tool =>
      tool.Releases.get d.ToolVersion

/-- Resolved form of the edges of a list, in the order of the list; an edge that does
not resolve contributes nothing. -/
def resolvedEdges (sc : StatusContext) (deps : List toolDependency) : List CoreDependency :=
  deps.filterMap fun d =>
    (storedRelease sc d).map fun r => { ToolName := d.ToolName, Release := r }

/-! ## The end-to-end scenario of the specification -/

/-- Release "1.0" of avr-gcc. -/
def avrGcc10 : ToolRelease := { Version := "1.0", Flavours := ["linux"] }

/-- Release "2.0" of avr-gcc. -/
def avrGcc20 : ToolRelease := { Version := "2.0", Flavours := ["linux", "darwin"] }

/-- Tool "avr-gcc" offering the releases "1.0" and "2.0". -/
def avrGcc : Tool :=
  { Name := "avr-gcc", Releases := [("1.0", avrGcc10), ("2.0", avrGcc20)] }

/-- Descriptor of the package "arduino" offering the tool "avr-gcc". -/
def arduinoDescriptor : indexPackage :=
  { Name := "arduino",
    extractPackage := { Name := "arduino", Tools := [("avr-gcc", avrGcc)] } }

/-- Catalog built from the index holding the one package "arduino". -/
def arduinoCatalog : StatusContext :=
  (Index.CreateStatusContext { Packages := [arduinoDescriptor] }).1

/-- Core release with the given dependency edges. -/
def coreRelease (deps : List toolDependency) : Release :=
  { Version := "1.6.0", Dependencies := deps }

/-- Second descriptor named "arduino": it offers the tool "bossac" only. -/
def arduinoDescriptor2 : indexPackage :=
  { Name := "arduino",
    extractPackage :=
      { Name := "arduino",
        Tools := [("bossac", { Name := "bossac", Releases := [("1.7", ⟨"1.7", []⟩)] })] } }

/-- Descriptor of a package of the given name, without tools. -/
def emptyDescriptor (name : String) : indexPackage :=
  { Name := name, extractPackage := { Name := name, Tools := [] } }

/-- Catalog of the packages "avr" and "AVR", visited in this order. -/
def avrThenAVR : StatusContext :=
  { Packages := [("avr", { Name := "avr", Tools := [] }),
      ("AVR", { Name := "AVR", Tools := [] })] }

/-- Same catalog as `avrThenAVR`, visited in the other order. -/
def AVRThenAvr : StatusContext :=
  { Packages := [("AVR", { Name := "AVR", Tools := [] }),
      ("avr", { Name := "avr", Tools := [] })] }

/-- Catalog of the packages "Éy" and "éx", visited in this order. -/
def accentedCatalog : StatusContext :=
  { Packages := [("Éy", { Name := "Éy", Tools := [] }),
      ("éx", { Name := "éx", Tools := [] })] }


/-! ## Lemmas on maps -/

theorem Names.fill_append (keys pre post : List String) (h : keys.length ≤ post.length) :
    Names.fill keys pre.length (pre ++ post) = pre ++ keys ++ post.drop keys.length := by
  induction keys generalizing pre post with
  | nil => simp [Names.fill]
  | cons n rest ih =>
    cases post with
    | nil => simp at h
    | cons p post =>
      have hlen : rest.length ≤ post.length := by simpa using h
      have hset : (pre ++ p :: post).set pre.length n = (pre ++ [n]) ++ post := by
        rw [List.set_append_right _ _ (Nat.le_refl _)]
        simp
      have hpre : pre.length + 1 = (pre ++ [n]).length := by simp
      rw [Names.fill, hset, hpre, ih (pre ++ [n]) post hlen]
      simp

theorem Names.fill_keys (keys : List String) :
    Names.fill keys 0 (List.replicate keys.length "") = keys := by
  have h := Names.fill_append keys [] (List.replicate keys.length "") (by simp)
  simpa using h

theorem Names_eq (sc : StatusContext) (lower : Char → Char) :
    sc.Names lower = CiAsc lower sc.Packages.keys := by
  have hlen : sc.Packages.length = sc.Packages.keys.length := by simp [GoMap.keys]
  rw [StatusContext.Names, hlen, Names.fill_keys]

theorem GoMap.get_eq_none_iff {V : Type} (m : GoMap V) (k : String) :
    m.get k = none ↔ k ∉ m.keys := by
  induction m with
  | nil => simp [GoMap.get, GoMap.keys]
  | cons e rest ih =>
    obtain ⟨k', v⟩ := e
    by_cases h : k' = k
    · simp [GoMap.get, GoMap.keys, h]
    · have h' : ¬ k = k' := fun c => h c.symm
      simpa [GoMap.get, GoMap.keys, h, h'] using ih

theorem GoMap.get_set_self {V : Type} (m : GoMap V) (k : String) (v : V) :
    (m.set k v).get k = some v := by
  simp [GoMap.set, GoMap.get]

theorem GoMap.get_filter_ne {V : Type} (m : GoMap V) (k n : String) (h : n ≠ k) :
    GoMap.get (m.filter (fun e => decide (e.1 ≠ k))) n = m.get n := by
  induction m with
  | nil => rfl
  | cons e rest ih =>
    obtain ⟨k', v⟩ := e
    by_cases hk : k' = k
    · have hn : ¬ k' = n := fun c => h (c.symm.trans hk)
      have hdec : decide ((k', v).1 ≠ k) = false := by simp [hk]
      rw [List.filter_cons, hdec]
      simp only [Bool.false_eq_true, if_false]
      rw [ih]
      simp [GoMap.get, hn]
    · have hdec : decide ((k', v).1 ≠ k) = true := by simp [hk]
      rw [List.filter_cons, hdec]
      simp only [if_true, GoMap.get]
      rw [ih]

theorem GoMap.get_set_other {V : Type} (m : GoMap V) (k n : String) (v : V) (h : n ≠ k) :
    (m.set k v).get n = m.get n := by
  have hk : ¬ k = n := fun c => h c.symm
  simp only [GoMap.set, GoMap.get, hk, if_false]
  exact GoMap.get_filter_ne m k n h

theorem GoMap.set_set {V : Type} (m : GoMap V) (k : String) (v w : V) :
    (m.set k v).set k w = m.set k w := by
  simp [GoMap.set, List.filter_filter]

/-! ## Lemmas on the loop of `GetDeps` -/

theorem GetDeps.loop_resolved (sc : StatusContext) (d : toolDependency) (r : ToolRelease)
    (rest : List toolDependency) (ret : List CoreDependency)
    (h : storedRelease sc d = some r) :
    GetDeps.loop sc (d :: rest) ret =
      GetDeps.loop sc rest (ret ++ [{ ToolName := d.ToolName, Release := r }]) := by
  unfold storedRelease at h
  cases hp : sc.Packages.get d.ToolPackager with
  | none => simp [hp] at h
  | some pkg =>
    cases ht : pkg.Tools.get d.ToolName with
    | none => simp [hp, ht] at h
    | some tool =>
      cases hr : tool.Releases.get d.ToolVersion with
      | none => simp [hp, ht, hr] at h
      | some r' =>
        simp [hp, ht, hr] at h
        subst h
        simp [GetDeps.loop, hp, ht, hr]

theorem GetDeps.loop_append (sc : StatusContext) (pre rest : List toolDependency)
    (ret : List CoreDependency) (h : ∀ d ∈ pre, (storedRelease sc d).isSome = true) :
    GetDeps.loop sc (pre ++ rest) ret = GetDeps.loop sc rest (ret ++ resolvedEdges sc pre) := by
  induction pre generalizing ret with
  | nil => simp [resolvedEdges]
  | cons d pre ih =>
    have hd := h d (List.mem_cons_self _ _)
    obtain ⟨r, hr⟩ := Option.isSome_iff_exists.mp hd
    rw [List.cons_append, GetDeps.loop_resolved sc d r _ ret hr,
      ih _ (fun e he => h e (List.mem_cons_of_mem _ he))]
    simp [resolvedEdges, List.filterMap_cons, hr]

theorem resolvedEdges_length (sc : StatusContext) (deps : List toolDependency)
    (h : ∀ d ∈ deps, (storedRelease sc d).isSome = true) :
    (resolvedEdges sc deps).length = deps.length := by
  induction deps with
  | nil => rfl
  | cons d deps ih =>
    obtain ⟨r, hr⟩ := Option.isSome_iff_exists.mp (h d (List.mem_cons_self _ _))
    have ih' := ih (fun e he => h e (List.mem_cons_of_mem _ he))
    simp only [resolvedEdges, List.filterMap_cons, hr, Option.map_some', List.length_cons]
    simpa [resolvedEdges] using ih'

theorem resolvedEdges_getElem? (sc : StatusContext) (deps : List toolDependency)
    (h : ∀ d ∈ deps, (storedRelease sc d).isSome = true) (i : Nat) (d : toolDependency)
    (hd : deps[i]? = some d) :
    ∃ r, storedRelease sc d = some r ∧
      (resolvedEdges sc deps)[i]? = some { ToolName := d.ToolName, Release := r } := by
  induction deps generalizing i with
  | nil => simp at hd
  | cons e deps ih =>
    obtain ⟨r, hr⟩ := Option.isSome_iff_exists.mp (h e (List.mem_cons_self _ _))
    cases i with
    | zero =>
      simp at hd
      subst hd
      exact ⟨r, hr, by simp [resolvedEdges, List.filterMap_cons, hr]⟩
    | succ j =>
      simp at hd
      obtain ⟨r', hr', hj⟩ := ih (fun x hx => h x (List.mem_cons_of_mem _ hx)) j hd
      refine ⟨r', hr', ?_⟩
      simp only [resolvedEdges, List.filterMap_cons, hr, Option.map_some']
      simpa [resolvedEdges] using hj

theorem GetDeps.loop_unresolved (sc : StatusContext) (d : toolDependency)
    (post : List toolDependency) (ret : List CoreDependency)
    (h : storedRelease sc d = none) :
    GetDeps.loop sc (d :: post) ret = GetDeps.loop sc [d] [] := by
  unfold storedRelease at h
  cases hp : sc.Packages.get d.ToolPackager with
  | none => simp [GetDeps.loop, hp]
  | some pkg =>
    cases ht : pkg.Tools.get d.ToolName with
    | none => simp [GetDeps.loop, hp, ht]
    | some tool =>
      cases hr : tool.Releases.get d.ToolVersion with
      | none => simp [GetDeps.loop, hp, ht, hr]
      | some r => simp [hp, ht, hr] at h

theorem split_at_index {α : Type} (l : List α) (k : Nat) (d : α) (h : l[k]? = some d) :
    l = l.take k ++ d :: l.drop (k + 1) := by
  obtain ⟨hk, hd⟩ := List.getElem?_eq_some.mp h
  have h1 := (List.take_append_drop k l).symm
  rw [List.drop_eq_getElem_cons hk, hd] at h1
  exact h1

theorem GetDeps.loop_first_unresolved (sc : StatusContext) (deps : List toolDependency)
    (k : Nat) (d : toolDependency) (hk : deps[k]? = some d)
    (hpre : ∀ i e, i < k → deps[i]? = some e → (storedRelease sc e).isSome = true)
    (hd : storedRelease sc d = none) :
    GetDeps.loop sc deps [] = GetDeps.loop sc [d] [] := by
  have hsplit := split_at_index deps k d hk
  have hall : ∀ e ∈ deps.take k, (storedRelease sc e).isSome = true := by
    intro e he
    obtain ⟨i, hi⟩ := List.mem_iff_getElem?.mp he
    rw [List.getElem?_take] at hi
    by_cases hik : i < k
    · rw [if_pos hik] at hi
      exact hpre i e hik hi
    · rw [if_neg hik] at hi
      cases hi
  rw [hsplit, GetDeps.loop_append sc _ _ _ hall, GetDeps.loop_unresolved sc d _ _ hd]

theorem storedRelease_eq_some_iff (sc : StatusContext) (d : toolDependency) (r : ToolRelease) :
    storedRelease sc d = some r ↔
      ∃ pkg tool, sc.Packages.get d.ToolPackager = some pkg ∧
        pkg.Tools.get d.ToolName = some tool ∧ tool.Releases.get d.ToolVersion = some r := by
  unfold storedRelease
  cases hp : sc.Packages.get d.ToolPackager with
  | none => simp
  | some pkg =>
    cases ht : pkg.Tools.get d.ToolName with
    | none => simp [ht]
    | some tool => simp [ht]

theorem storedRelease_eq_none_iff (sc : StatusContext) (d : toolDependency) :
    storedRelease sc d = none ↔
      ¬ ∃ pkg tool r, sc.Packages.get d.ToolPackager = some pkg ∧
        pkg.Tools.get d.ToolName = some tool ∧ tool.Releases.get d.ToolVersion = some r := by
  constructor
  · rintro h ⟨pkg, tool, r, hp, ht, hr⟩
    have := (storedRelease_eq_some_iff sc d r).mpr ⟨pkg, tool, hp, ht, hr⟩
    rw [h] at this
    cases this
  · intro h
    cases hs : storedRelease sc d with
    | none => rfl
    | some r =>
      obtain ⟨pkg, tool, hp, ht, hr⟩ := (storedRelease_eq_some_iff sc d r).mp hs
      exact absurd ⟨pkg, tool, r, hp, ht, hr⟩ h

/-! ## Dependency resolution of a release (`GetDeps`) -/

/-- C1: when the triple of every declared dependency of a release is present in the
catalog, `GetDeps` returns no error and a list with one `CoreDependency` per declared
dependency, in declaration order: element `i` pairs the tool name of dependency `i`
with the release stored in the catalog under the triple of dependency `i`. -/
theorem GetDeps_all_resolvable (sc : StatusContext) (release : Release)
    (h : ∀ d ∈ release.Dependencies, ∃ pkg tool r,
      sc.Packages.get d.ToolPackager = some pkg ∧ pkg.Tools.get d.ToolName = some tool ∧
        tool.Releases.get d.ToolVersion = some r) :
    ∃ ret, sc.GetDeps (some release) = (some ret, none) ∧
      ret.length = release.Dependencies.length ∧
      ∀ (i : Nat) (d : toolDependency), release.Dependencies[i]? = some d →
        ∃ pkg tool r, sc.Packages.get d.ToolPackager = some pkg ∧
          pkg.Tools.get d.ToolName = some tool ∧ tool.Releases.get d.ToolVersion = some r ∧
          ret[i]? = some { ToolName := d.ToolName, Release := r } := by
  have hall : ∀ d ∈ release.Dependencies, (storedRelease sc d).isSome = true := by
    intro d hd
    obtain ⟨pkg, tool, r, hp, ht, hr⟩ := h d hd
    simp [storedRelease, hp, ht, hr]
  refine ⟨resolvedEdges sc release.Dependencies, ?_, resolvedEdges_length sc _ hall, ?_⟩
  · have := GetDeps.loop_append sc release.Dependencies [] [] hall
    simpa [StatusContext.GetDeps, GetDeps.loop] using this
  · intro i d hd
    obtain ⟨r, hr, hi⟩ := resolvedEdges_getElem? sc _ hall i d hd
    obtain ⟨pkg, tool, r', hp, ht, hr'⟩ := h d (List.mem_iff_getElem?.mpr ⟨i, hd⟩)
    have : r' = r := by
      simp [storedRelease, hp, ht, hr'] at hr
      exact hr
    subst this
    exact ⟨pkg, tool, r', hp, ht, hr', hi⟩

/-- Witness of C1: the end-to-end scenario. In the catalog built from the package
"arduino" with the tool "avr-gcc" in releases "1.0" and "2.0", the one dependency on
("arduino", "avr-gcc", "1.0") resolves to the one pair of "avr-gcc" with release "1.0". -/
theorem GetDeps_all_resolvable_witness :
    arduinoCatalog.GetDeps (some (coreRelease [⟨"arduino", "avr-gcc", "1.0"⟩])) =
        (some [{ ToolName := "avr-gcc", Release := avrGcc10 }], none) ∧
      ∃ ret, arduinoCatalog.GetDeps (some (coreRelease [⟨"arduino", "avr-gcc", "1.0"⟩])) =
          (some ret, none) ∧
        ret.length = 1 ∧
        ∀ (i : Nat) (d : toolDependency),
          (coreRelease [⟨"arduino", "avr-gcc", "1.0"⟩]).Dependencies[i]? = some d →
          ∃ pkg tool r, arduinoCatalog.Packages.get d.ToolPackager = some pkg ∧
            pkg.Tools.get d.ToolName = some tool ∧
            tool.Releases.get d.ToolVersion = some r ∧
            ret[i]? = some { ToolName := d.ToolName, Release := r } :=
  ⟨by decide,
    GetDeps_all_resolvable arduinoCatalog (coreRelease [⟨"arduino", "avr-gcc", "1.0"⟩])
      (fun d hd => by
        have hd' : d = ⟨"arduino", "avr-gcc", "1.0"⟩ := by simpa [coreRelease] using hd
        subst hd'
        exact ⟨arduinoDescriptor.extractPackage, avrGcc, avrGcc10,
          by decide, by decide, by decide⟩)⟩

/-- C2: when the dependency at index `k` is the first one whose triple is not in the
catalog, `GetDeps` returns the nil list and an error naming what edge `k` misses: its
packager when the package is absent, its tool name when the package lacks the tool, its
version when the tool lacks the version; the dependencies after index `k` do not
change the result. -/
theorem GetDeps_first_unresolvable (sc : StatusContext) (release : Release) (k : Nat)
    (d : toolDependency) (hk : release.Dependencies[k]? = some d)
    (hpre : ∀ (i : Nat) (e : toolDependency), i < k → release.Dependencies[i]? = some e →
      ∃ pkg tool r, sc.Packages.get e.ToolPackager = some pkg ∧
        pkg.Tools.get e.ToolName = some tool ∧ tool.Releases.get e.ToolVersion = some r)
    (hd : ¬ ∃ pkg tool r, sc.Packages.get d.ToolPackager = some pkg ∧
      pkg.Tools.get d.ToolName = some tool ∧ tool.Releases.get d.ToolVersion = some r) :
    (∃ msg, sc.GetDeps (some release) = (none, some msg)) ∧
    (sc.Packages.get d.ToolPackager = none →
      sc.GetDeps (some release) =
        (none, some ("Package " ++ d.ToolPackager ++ " not found"))) ∧
    (∀ pkg, sc.Packages.get d.ToolPackager = some pkg → pkg.Tools.get d.ToolName = none →
      sc.GetDeps (some release) = (none, some ("Tool " ++ d.ToolName ++ " not found"))) ∧
    (∀ pkg tool, sc.Packages.get d.ToolPackager = some pkg →
      pkg.Tools.get d.ToolName = some tool → tool.Releases.get d.ToolVersion = none →
      sc.GetDeps (some release) =
        (none, some ("Tool version " ++ d.ToolVersion ++ " not found"))) ∧
    (∀ other : Release,
      other.Dependencies.take (k + 1) = release.Dependencies.take (k + 1) →
      sc.GetDeps (some other) = sc.GetDeps (some release)) := by
  have hnone : storedRelease sc d = none := (storedRelease_eq_none_iff sc d).mpr hd
  have hpre' : ∀ (i : Nat) (e : toolDependency), i < k → release.Dependencies[i]? = some e →
      (storedRelease sc e).isSome = true := by
    intro i e hi he
    obtain ⟨pkg, tool, r, hp, ht, hr⟩ := hpre i e hi he
    rw [(storedRelease_eq_some_iff sc e r).mpr ⟨pkg, tool, hp, ht, hr⟩]
    rfl
  have hres : sc.GetDeps (some release) = GetDeps.loop sc [d] [] :=
    GetDeps.loop_first_unresolved sc release.Dependencies k d hk hpre' hnone
  refine ⟨?_, ?_, ?_, ?_, ?_⟩
  · rw [hres]
    unfold storedRelease at hnone
    cases hp : sc.Packages.get d.ToolPackager with
    | none => exact ⟨"Package " ++ d.ToolPackager ++ " not found", by simp [GetDeps.loop, hp]⟩
    | some pkg =>
      cases ht : pkg.Tools.get d.ToolName with
      | none => exact ⟨"Tool " ++ d.ToolName ++ " not found", by simp [GetDeps.loop, hp, ht]⟩
      | some tool =>
        cases hr : tool.Releases.get d.ToolVersion with
        | none =>
          exact ⟨"Tool version " ++ d.ToolVersion ++ " not found",
            by simp [GetDeps.loop, hp, ht, hr]⟩
        | some r => simp [hp, ht, hr] at hnone
  · intro hp
    rw [hres]
    simp [GetDeps.loop, hp]
  · intro pkg hp ht
    rw [hres]
    simp [GetDeps.loop, hp, ht]
  · intro pkg tool hp ht hr
    rw [hres]
    simp [GetDeps.loop, hp, ht, hr]
  · intro other hother
    have hsame : ∀ i : Nat, i < k + 1 → other.Dependencies[i]? = release.Dependencies[i]? := by
      intro i hi
      rw [← List.getElem?_take_of_lt hi, hother, List.getElem?_take_of_lt hi]
    have hk' : other.Dependencies[k]? = some d := by
      rw [hsame k (Nat.lt_succ_self k)]
      exact hk
    have hpre'' : ∀ (i : Nat) (e : toolDependency), i < k → other.Dependencies[i]? = some e →
        (storedRelease sc e).isSome = true := by
      intro i e hi he
      rw [hsame i (Nat.lt_succ_of_lt hi)] at he
      exact hpre' i e hi he
    rw [hres]
    exact GetDeps.loop_first_unresolved sc other.Dependencies k d hk' hpre'' hnone

/-- Witness of C2: the end-to-end scenario. In the catalog of "arduino" with "avr-gcc"
in releases "1.0" and "2.0", the dependency on ("arduino", "avr-gcc", "9.9") fails with
the error on the version, naming "9.9". -/
theorem GetDeps_first_unresolvable_witness :
    arduinoCatalog.GetDeps (some (coreRelease [⟨"arduino", "avr-gcc", "9.9"⟩])) =
        (none, some "Tool version 9.9 not found") ∧
      ∀ other : Release,
        other.Dependencies.take (0 + 1) =
          (coreRelease [⟨"arduino", "avr-gcc", "9.9"⟩]).Dependencies.take (0 + 1) →
        arduinoCatalog.GetDeps (some other) =
          arduinoCatalog.GetDeps (some (coreRelease [⟨"arduino", "avr-gcc", "9.9"⟩])) :=
  ⟨by decide,
    (GetDeps_first_unresolvable arduinoCatalog (coreRelease [⟨"arduino", "avr-gcc", "9.9"⟩]) 0
      ⟨"arduino", "avr-gcc", "9.9"⟩ (by decide)
      (fun i e hi _ => absurd hi (Nat.not_lt_zero i))
      ((storedRelease_eq_none_iff arduinoCatalog ⟨"arduino", "avr-gcc", "9.9"⟩).mp
        (by decide))).2.2.2.2⟩

/-- C7: `GetDeps` on the nil release fails with "release cannot be nil" and the nil
list, and the result is the same for every two catalogs: the catalog is not
consulted. -/
theorem GetDeps_nil_release :
    (∀ sc : StatusContext, sc.GetDeps none = (none, some "release cannot be nil")) ∧
    (∀ sc₁ sc₂ : StatusContext, sc₁.GetDeps none = sc₂.GetDeps none) ∧
    StatusContext.GetDeps { Packages := [] } none = arduinoCatalog.GetDeps none :=
  ⟨fun _ => rfl, fun _ _ => rfl, rfl⟩

/-- C8: on a release whose dependency list is empty, `GetDeps` returns no error and a
list that is present (not the nil list of a failure) and has length zero, whatever
the catalog. -/
theorem GetDeps_no_dependencies (sc : StatusContext) (release : Release)
    (h : release.Dependencies = []) :
    sc.GetDeps (some release) = (some [], none) ∧
      (sc.GetDeps (some release)).1 ≠ none ∧
      (sc.GetDeps (some release)).1 ≠ (sc.GetDeps none).1 := by
  have hres : sc.GetDeps (some release) = (some [], none) := by
    simp [StatusContext.GetDeps, h, GetDeps.loop]
  rw [hres]
  simp [StatusContext.GetDeps]

/-- Witness of C8: the release without dependencies on the empty catalog. -/
theorem GetDeps_no_dependencies_witness :
    StatusContext.GetDeps { Packages := [] } (some (coreRelease [])) = (some [], none) ∧
      (StatusContext.GetDeps { Packages := [] } (some (coreRelease []))).1 ≠ none ∧
      (StatusContext.GetDeps { Packages := [] } (some (coreRelease []))).1 ≠
        (StatusContext.GetDeps { Packages := [] } none).1 :=
  GetDeps_no_dependencies { Packages := [] } (coreRelease []) rfl

/-! ## Resolution of one dependency (`extractTool`, `extractRelease`) -/

/-- C3: when the catalog has a package under the packager of the dependency, that
package a tool under its tool name and that tool a release under its version,
`extractRelease` returns no error and the very release stored there. -/
theorem extractRelease_present (sc : StatusContext) (d : toolDependency) (pkg : Package)
    (tool : Tool) (r : ToolRelease) (hp : sc.Packages.get d.ToolPackager = some pkg)
    (ht : pkg.Tools.get d.ToolName = some tool)
    (hr : tool.Releases.get d.ToolVersion = some r) :
    d.extractRelease sc = (some r, none) := by
  simp [toolDependency.extractRelease, toolDependency.extractTool, hp, ht, hr]

/-- Witness of C3: ("arduino", "avr-gcc", "2.0") in the catalog of the scenario. -/
theorem extractRelease_present_witness :
    toolDependency.extractRelease ⟨"arduino", "avr-gcc", "2.0"⟩ arduinoCatalog =
      (some avrGcc20, none) :=
  extractRelease_present arduinoCatalog ⟨"arduino", "avr-gcc", "2.0"⟩
    arduinoDescriptor.extractPackage avrGcc avrGcc20 (by decide) (by decide) (by decide)

/-- C4: when the packager of the dependency is not a key of the catalog,
`extractRelease` fails with "Package not found", returns no release, and the error is
neither "Tool not found" nor "Release Not Found". -/
theorem extractRelease_package_absent (sc : StatusContext) (d : toolDependency)
    (hp : d.ToolPackager ∉ sc.Packages.keys) :
    d.extractRelease sc = (none, some "Package not found") ∧
      (d.extractRelease sc).2 ≠ some "Tool not found" ∧
      (d.extractRelease sc).2 ≠ some "Release Not Found" := by
  have hget : sc.Packages.get d.ToolPackager = none :=
    (GoMap.get_eq_none_iff _ _).mpr hp
  have hres : d.extractRelease sc = (none, some "Package not found") := by
    simp [toolDependency.extractRelease, toolDependency.extractTool, hget]
  rw [hres]
  exact ⟨rfl, by decide, by decide⟩

/-- Witness of C4: the packager "esp" is not in the catalog of the scenario, which has
the tool and the version asked for under "arduino". -/
theorem extractRelease_package_absent_witness :
    toolDependency.extractRelease ⟨"esp", "avr-gcc", "1.0"⟩ arduinoCatalog =
        (none, some "Package not found") ∧
      (toolDependency.extractRelease ⟨"esp", "avr-gcc", "1.0"⟩ arduinoCatalog).2 ≠
        some "Tool not found" ∧
      (toolDependency.extractRelease ⟨"esp", "avr-gcc", "1.0"⟩ arduinoCatalog).2 ≠
        some "Release Not Found" :=
  extractRelease_package_absent arduinoCatalog ⟨"esp", "avr-gcc", "1.0"⟩ (by decide)

/-- C5: when the packager of the dependency is in the catalog and its tool name is not
a key of the tools of that package, `extractRelease` fails with "Tool not found",
returns no release, and the error is neither "Package not found" nor
"Release Not Found". -/
theorem extractRelease_tool_absent (sc : StatusContext) (d : toolDependency) (pkg : Package)
    (hp : sc.Packages.get d.ToolPackager = some pkg) (ht : d.ToolName ∉ pkg.Tools.keys) :
    d.extractRelease sc = (none, some "Tool not found") ∧
      (d.extractRelease sc).2 ≠ some "Package not found" ∧
      (d.extractRelease sc).2 ≠ some "Release Not Found" := by
  have hget : pkg.Tools.get d.ToolName = none := (GoMap.get_eq_none_iff _ _).mpr ht
  have hres : d.extractRelease sc = (none, some "Tool not found") := by
    simp [toolDependency.extractRelease, toolDependency.extractTool, hp, hget]
  rw [hres]
  exact ⟨rfl, by decide, by decide⟩

/-- Witness of C5: the package "arduino" of the scenario has no tool "bossac". -/
theorem extractRelease_tool_absent_witness :
    toolDependency.extractRelease ⟨"arduino", "bossac", "1.0"⟩ arduinoCatalog =
        (none, some "Tool not found") ∧
      (toolDependency.extractRelease ⟨"arduino", "bossac", "1.0"⟩ arduinoCatalog).2 ≠
        some "Package not found" ∧
      (toolDependency.extractRelease ⟨"arduino", "bossac", "1.0"⟩ arduinoCatalog).2 ≠
        some "Release Not Found" :=
  extractRelease_tool_absent arduinoCatalog ⟨"arduino", "bossac", "1.0"⟩
    arduinoDescriptor.extractPackage (by decide) (by decide)

/-- C6: when packager and tool of the dependency are in the catalog and no key of the
releases of that tool equals its version string, `extractRelease` fails with
"Release Not Found", returns no release, and the error is neither
"Package not found" nor "Tool not found". -/
theorem extractRelease_version_absent (sc : StatusContext) (d : toolDependency)
    (pkg : Package) (tool : Tool) (hp : sc.Packages.get d.ToolPackager = some pkg)
    (ht : pkg.Tools.get d.ToolName = some tool)
    (hr : ∀ e ∈ tool.Releases, e.1 ≠ d.ToolVersion) :
    d.extractRelease sc = (none, some "Release Not Found") ∧
      (d.extractRelease sc).2 ≠ some "Package not found" ∧
      (d.extractRelease sc).2 ≠ some "Tool not found" := by
  have hkeys : d.ToolVersion ∉ tool.Releases.keys := by
    intro hmem
    obtain ⟨e, he, hk⟩ := List.mem_map.mp hmem
    exact hr e he hk
  have hget : tool.Releases.get d.ToolVersion = none := (GoMap.get_eq_none_iff _ _).mpr hkeys
  have hres : d.extractRelease sc = (none, some "Release Not Found") := by
    simp [toolDependency.extractRelease, toolDependency.extractTool, hp, ht, hget]
  rw [hres]
  exact ⟨rfl, by decide, by decide⟩

/-- Witness of C6: the version "1" is a prefix of the key "1.0" of the scenario and is
not a key: it is not found. -/
theorem extractRelease_version_absent_witness :
    toolDependency.extractRelease ⟨"arduino", "avr-gcc", "1"⟩ arduinoCatalog =
        (none, some "Release Not Found") ∧
      (toolDependency.extractRelease ⟨"arduino", "avr-gcc", "1"⟩ arduinoCatalog).2 ≠
        some "Package not found" ∧
      (toolDependency.extractRelease ⟨"arduino", "avr-gcc", "1"⟩ arduinoCatalog).2 ≠
        some "Tool not found" :=
  extractRelease_version_absent arduinoCatalog ⟨"arduino", "avr-gcc", "1"⟩
    arduinoDescriptor.extractPackage avrGcc (by decide) (by decide) (by decide)

/-! ## Insertion into the catalog (`Add`) -/

theorem GoMap.count_keys_set {V : Type} (m : GoMap V) (k : String) (v : V) :
    (GoMap.keys (m.set k v)).count k = 1 := by
  have hnot : k ∉ (m.filter (fun e => decide (e.1 ≠ k))).map Prod.fst := by
    intro hmem
    obtain ⟨e, he, hk⟩ := List.mem_map.mp hmem
    have := (List.mem_filter.mp he).2
    simp [hk] at this
  simp only [GoMap.set, GoMap.keys, List.map_cons, List.count_cons_self,
    List.count_eq_zero_of_not_mem hnot]

/-- C9: after `Add p1` and then `Add p2` of two descriptors with the same name, the
entry under that name is the package extracted from `p2`, so its tools are those of
`p2` alone; the name has that one entry; and the catalog is the one `Add p2` alone
gives. -/
theorem Add_twice_same_name (sc : StatusContext) (p1 p2 : indexPackage)
    (h : p1.Name = p2.Name) :
    ((sc.Add p1).Add p2).Packages.get p2.Name = some p2.extractPackage ∧
      (∀ pkg, ((sc.Add p1).Add p2).Packages.get p1.Name = some pkg →
        pkg = p2.extractPackage ∧ pkg.Tools = p2.extractPackage.Tools) ∧
      ((sc.Add p1).Add p2).Packages.keys.count p2.Name = 1 ∧
      (sc.Add p1).Add p2 = sc.Add p2 := by
  have hget : ((sc.Add p1).Add p2).Packages.get p2.Name = some p2.extractPackage :=
    GoMap.get_set_self _ _ _
  refine ⟨hget, ?_, GoMap.count_keys_set _ _ _, ?_⟩
  · intro pkg hpkg
    rw [h, hget] at hpkg
    cases hpkg
    exact ⟨rfl, rfl⟩
  · simp only [StatusContext.Add, h, GoMap.set_set]

/-- Witness of C9: after the two descriptors named "arduino", the tool "avr-gcc" of the
first one is no longer found. -/
theorem Add_twice_same_name_witness :
    toolDependency.extractRelease ⟨"arduino", "avr-gcc", "1.0"⟩
        ((arduinoCatalog.Add arduinoDescriptor).Add arduinoDescriptor2) =
        (none, some "Tool not found") ∧
      (((arduinoCatalog.Add arduinoDescriptor).Add arduinoDescriptor2).Packages.get
          arduinoDescriptor2.Name = some arduinoDescriptor2.extractPackage ∧
        (∀ pkg, ((arduinoCatalog.Add arduinoDescriptor).Add arduinoDescriptor2).Packages.get
            arduinoDescriptor.Name = some pkg →
          pkg = arduinoDescriptor2.extractPackage ∧
            pkg.Tools = arduinoDescriptor2.extractPackage.Tools) ∧
        ((arduinoCatalog.Add arduinoDescriptor).Add arduinoDescriptor2).Packages.keys.count
          arduinoDescriptor2.Name = 1 ∧
        (arduinoCatalog.Add arduinoDescriptor).Add arduinoDescriptor2 =
          arduinoCatalog.Add arduinoDescriptor2) :=
  ⟨by decide, Add_twice_same_name arduinoCatalog arduinoDescriptor arduinoDescriptor2 rfl⟩

/-! ## Enumeration of the package names (`Names`) -/

theorem ciLess_asymm {lower : Char → Char} (a b : String) (h : ciLess lower a b = true) :
    ciLess lower b a = false := by
  unfold ciLess at *
  have h1 : ToLower lower a < ToLower lower b :=
    String.lt_iff_toList_lt.mpr (of_decide_eq_true h)
  have h2 : ¬ ToLower lower b < ToLower lower a := lt_asymm h1
  exact decide_eq_false (fun c => h2 (String.lt_iff_toList_lt.mpr c))

theorem ciLess_false_iff {lower : Char → Char} (a b : String) :
    ciLess lower a b = false ↔ ToLower lower b ≤ ToLower lower a := by
  unfold ciLess
  rw [decide_eq_false_iff_not, ← not_lt]
  exact not_congr String.lt_iff_toList_lt.symm

theorem CiAsc.sink_head {lower : Char → Char} (x : String) (l : List String) :
    ∀ h ∈ (CiAsc.sink lower x l).head?, h = x ∨ h ∈ l.head? := by
  intro h hh
  cases l with
  | nil =>
    left
    simpa [CiAsc.sink, eq_comm] using hh
  | cons y ys =>
    by_cases hxy : ciLess lower x y = true
    · right
      simpa [CiAsc.sink, hxy, eq_comm] using hh
    · left
      simpa [CiAsc.sink, hxy, eq_comm] using hh

theorem CiAsc.sink_chain {lower : Char → Char} (x : String) (l : List String)
    (hl : List.Chain' (fun a b => ciLess lower a b = false) l) :
    List.Chain' (fun a b => ciLess lower a b = false) (CiAsc.sink lower x l) := by
  induction l with
  | nil => simp [CiAsc.sink]
  | cons y ys ih =>
    by_cases hxy : ciLess lower x y = true
    · simp only [CiAsc.sink, hxy, if_true]
      refine List.Chain'.cons' (ih hl.tail) ?_
      intro z hz
      rcases CiAsc.sink_head x ys z hz with hzx | hzy
      · rw [hzx]
        exact ciLess_asymm x y hxy
      · exact hl.rel_head? hzy
    · have hxy' : ciLess lower x y = false := by simpa using hxy
      simp only [CiAsc.sink, hxy']
      exact List.Chain'.cons hxy' hl

theorem CiAsc.foldl_chain {lower : Char → Char} (xs acc : List String)
    (hacc : List.Chain' (fun a b => ciLess lower a b = false) acc) :
    List.Chain' (fun a b => ciLess lower a b = false)
      (xs.foldl (fun sortedRev x => CiAsc.sink lower x sortedRev) acc) := by
  induction xs generalizing acc with
  | nil => exact hacc
  | cons x xs ih => exact ih _ (CiAsc.sink_chain x acc hacc)

theorem CiAsc_pair_tie (lower : Char → Char) (a b : String)
    (h : ToLower lower a = ToLower lower b) : CiAsc lower [a, b] = [a, b] := by
  have hless : ciLess lower b a = false := by
    unfold ciLess
    rw [h]
    exact decide_eq_false (lt_irrefl _)
  simp [CiAsc, CiAsc.sink, hless]

theorem CiAsc_sorted {lower : Char → Char} (xs : List String) :
    List.Chain' (fun a b => ToLower lower a ≤ ToLower lower b) (CiAsc lower xs) := by
  unfold CiAsc
  rw [List.chain'_reverse]
  exact (CiAsc.foldl_chain xs [] List.chain'_nil).imp
    (fun {a b} hab => (ciLess_false_iff a b).mp hab)

/-- C10: the sequence `Names` returns is ascending under case-insensitive comparison:
each element, lowercased, is at most its successor, lowercased, whatever the catalog
and the order of its entries, and whatever the case table `lower` of
`strings.ToLower`. -/
theorem Names_sorted (lower : Char → Char) (sc : StatusContext) :
    List.Chain' (fun a b => ToLower lower a ≤ ToLower lower b) (sc.Names lower) := by
  rw [Names_eq]
  exact CiAsc_sorted sc.Packages.keys

/-- Witness of C10: after inserting "zeta", "Alpha", "beta" in this order, `Names` is
"Alpha", "beta", "zeta"; and the catalog of "Éy" and "éx" gives "éx", "Éy". -/
theorem Names_sorted_witness :
    (((StatusContext.Add { Packages := [] } (emptyDescriptor "zeta")).Add
        (emptyDescriptor "Alpha")).Add (emptyDescriptor "beta")).Names latin1ToLower =
        ["Alpha", "beta", "zeta"] ∧
      accentedCatalog.Names latin1ToLower = ["éx", "Éy"] ∧
      List.Chain' (fun a b => ToLower latin1ToLower a ≤ ToLower latin1ToLower b)
        ((((StatusContext.Add { Packages := [] } (emptyDescriptor "zeta")).Add
          (emptyDescriptor "Alpha")).Add (emptyDescriptor "beta")).Names latin1ToLower) :=
  ⟨by decide, by decide, Names_sorted latin1ToLower _⟩

theorem CiAsc.sink_perm {lower : Char → Char} (x : String) (l : List String) :
    (CiAsc.sink lower x l).Perm (x :: l) := by
  induction l with
  | nil => exact List.Perm.refl _
  | cons y ys ih =>
    by_cases hxy : ciLess lower x y = true
    · simp only [CiAsc.sink, hxy, if_true]
      exact ((List.Perm.cons y ih).trans (List.Perm.swap x y ys))
    · have hxy' : ciLess lower x y = false := by simpa using hxy
      simp only [CiAsc.sink, hxy']
      exact List.Perm.refl _

theorem CiAsc.foldl_perm {lower : Char → Char} (xs acc : List String) :
    (xs.foldl (fun sortedRev x => CiAsc.sink lower x sortedRev) acc).Perm (xs ++ acc) := by
  induction xs generalizing acc with
  | nil => exact List.Perm.refl _
  | cons x xs ih =>
    refine (ih (CiAsc.sink lower x acc)).trans ?_
    refine ((CiAsc.sink_perm x acc).append_left xs).trans ?_
    exact List.perm_middle

theorem CiAsc_perm {lower : Char → Char} (xs : List String) : (CiAsc lower xs).Perm xs := by
  unfold CiAsc
  refine (List.reverse_perm _).trans ?_
  simpa using CiAsc.foldl_perm xs []

theorem CiAsc_lower_sorted {lower : Char → Char} (xs : List String) :
    List.Sorted (fun a b : String => a ≤ b) ((CiAsc lower xs).map (ToLower lower)) := by
  have h : List.Chain' (fun a b => ToLower lower a ≤ ToLower lower b) (CiAsc lower xs) :=
    CiAsc_sorted xs
  have h' : List.Chain' (fun a b : String => a ≤ b) ((CiAsc lower xs).map (ToLower lower)) :=
    (List.chain'_map (ToLower lower)).mpr h
  exact List.chain'_iff_pairwise.mp h'

theorem CiAsc_lower_perm {lower : Char → Char} (xs ys : List String) (h : xs.Perm ys) :
    (CiAsc lower xs).map (ToLower lower) = (CiAsc lower ys).map (ToLower lower) := by
  have hp : (CiAsc lower xs).Perm (CiAsc lower ys) :=
    ((CiAsc_perm xs).trans h).trans (CiAsc_perm ys).symm
  exact List.eq_of_perm_of_sorted (hp.map (ToLower lower)) (CiAsc_lower_sorted xs)
    (CiAsc_lower_sorted ys)

theorem eq_of_map_eq_of_injOn {α β : Type} (f : α → β) (l₁ l₂ : List α)
    (hinj : ∀ a ∈ l₁, ∀ b ∈ l₂, f a = f b → a = b) (h : l₁.map f = l₂.map f) : l₁ = l₂ := by
  induction l₁ generalizing l₂ with
  | nil =>
    cases l₂ with
    | nil => rfl
    | cons b l₂ => simp at h
  | cons a l₁ ih =>
    cases l₂ with
    | nil => simp at h
    | cons b l₂ =>
      simp only [List.map_cons, List.cons.injEq] at h
      have hab : a = b := hinj a (List.mem_cons_self _ _) b (List.mem_cons_self _ _) h.1
      have htl : l₁ = l₂ :=
        ih l₂ (fun x hx y hy => hinj x (List.mem_cons_of_mem _ hx) y (List.mem_cons_of_mem _ hy))
          h.2
      rw [hab, htl]

theorem GoMap.get_perm {V : Type} (m₁ m₂ : GoMap V) (h : m₁.Perm m₂) (hwf : m₁.WF)
    (k : String) : m₁.get k = m₂.get k := by
  induction h with
  | nil => rfl
  | cons e _ ih =>
    obtain ⟨k', v⟩ := e
    have hwf' := (List.nodup_cons.mp hwf).2
    simp only [GoMap.get]
    rw [ih hwf']
  | swap e₁ e₂ l =>
    obtain ⟨k₁, v₁⟩ := e₁
    obtain ⟨k₂, v₂⟩ := e₂
    have hne : k₂ ≠ k₁ := by
      intro c
      have := (List.nodup_cons.mp hwf).1
      simp [GoMap.keys, c] at this
    simp only [GoMap.get]
    by_cases h1 : k₁ = k
    · have h2 : ¬ k₂ = k := fun c => hne (c.trans h1.symm)
      simp [h1, h2]
    · simp [h1]
  | trans h₁ _ ih₁ ih₂ =>
    exact (ih₁ hwf).trans (ih₂ ((h₁.map Prod.fst).nodup_iff.mp hwf))

/-- C15: `Names` returns each package name once: the result is a rearrangement of the
keys of the catalog, as long as the number of packages, without repetition, and a
string is in it exactly when it is a key; the empty strings the slice is made of
are all overwritten. -/
theorem Names_each_key_once (lower : Char → Char) (sc : StatusContext)
    (hwf : sc.Packages.WF) :
    (sc.Names lower).Perm sc.Packages.keys ∧
      (sc.Names lower).length = sc.Packages.length ∧
      (sc.Names lower).Nodup ∧
      (∀ n : String, n ∈ sc.Names lower ↔ n ∈ sc.Packages.keys) ∧
      (∀ n : String, n ∈ sc.Names lower ↔ (sc.Packages.get n).isSome = true) ∧
      (∀ n : String, n ∈ sc.Packages.keys → (sc.Names lower).count n = 1) ∧
      (sc.Packages.get "" = none → "" ∉ sc.Names lower) := by
  have hperm : (sc.Names lower).Perm sc.Packages.keys := by
    rw [Names_eq]
    exact CiAsc_perm _
  have hnodup : (sc.Names lower).Nodup := hperm.nodup_iff.mpr hwf
  have hmem : ∀ n : String, n ∈ sc.Names lower ↔ n ∈ sc.Packages.keys :=
    fun n => hperm.mem_iff
  have hget : ∀ n : String, n ∈ sc.Packages.keys ↔ (sc.Packages.get n).isSome = true := by
    intro n
    rw [← not_iff_not, ← GoMap.get_eq_none_iff]
    cases sc.Packages.get n <;> simp
  refine ⟨hperm, ?_, hnodup, hmem, fun n => (hmem n).trans (hget n), ?_, ?_⟩
  · rw [hperm.length_eq]
    simp [GoMap.keys]
  · intro n hn
    exact List.count_eq_one_of_mem hnodup ((hmem n).mpr hn)
  · intro hempty hin
    exact (GoMap.get_eq_none_iff _ _).mp hempty ((hmem "").mp hin)

/-- Witness of C15: the catalog of "avr" and "AVR". -/
theorem Names_each_key_once_witness :
    (avrThenAVR.Names latin1ToLower).Perm avrThenAVR.Packages.keys ∧
      (avrThenAVR.Names latin1ToLower).length = avrThenAVR.Packages.length ∧
      (avrThenAVR.Names latin1ToLower).Nodup ∧
      (∀ n : String, n ∈ avrThenAVR.Names latin1ToLower ↔ n ∈ avrThenAVR.Packages.keys) ∧
      (∀ n : String, n ∈ avrThenAVR.Names latin1ToLower ↔
        (avrThenAVR.Packages.get n).isSome = true) ∧
      (∀ n : String, n ∈ avrThenAVR.Packages.keys →
        (avrThenAVR.Names latin1ToLower).count n = 1) ∧
      (avrThenAVR.Packages.get "" = none → "" ∉ avrThenAVR.Names latin1ToLower) :=
  Names_each_key_once latin1ToLower avrThenAVR (by unfold GoMap.WF; decide)

/-- C11, as stated, fails: the catalog holding "avr" and "AVR" is the same map in the
two orders (same entries, same lookups), and `Names` returns "avr", "AVR" for one
order of iteration and "AVR", "avr" for the other; so it does for every case table
under which the two names are equal once lowercased. -/
theorem Names_depends_on_iteration_order :
    avrThenAVR.Packages.Perm AVRThenAvr.Packages ∧
      avrThenAVR.Packages.WF ∧ AVRThenAvr.Packages.WF ∧
      (∀ n : String, avrThenAVR.Packages.get n = AVRThenAvr.Packages.get n) ∧
      avrThenAVR.Names latin1ToLower = ["avr", "AVR"] ∧
      AVRThenAvr.Names latin1ToLower = ["AVR", "avr"] ∧
      avrThenAVR.Names latin1ToLower ≠ AVRThenAvr.Names latin1ToLower ∧
      (∀ lower : Char → Char, ToLower lower "avr" = ToLower lower "AVR" →
        avrThenAVR.Names lower = ["avr", "AVR"] ∧ AVRThenAvr.Names lower = ["AVR", "avr"]) :=
  ⟨by decide, by unfold GoMap.WF; decide, by unfold GoMap.WF; decide,
    fun n => GoMap.get_perm _ _ (by decide) (by unfold GoMap.WF; decide) n,
    by decide, by decide, by decide,
    fun lower h =>
      ⟨(Names_eq avrThenAVR lower).trans (CiAsc_pair_tie lower "avr" "AVR" h),
        (Names_eq AVRThenAvr lower).trans (CiAsc_pair_tie lower "AVR" "avr" h.symm)⟩⟩

/-- C11, amended: for two orders of iteration of the same catalog, the sequences
`Names` returns are the same once lowercased, and they are the same sequence when no
two distinct names of the catalog are equal ignoring case, that is equal once
lowercased with the case table `lower` of `strings.ToLower`. -/
theorem Names_iteration_order (lower : Char → Char) (sc₁ sc₂ : StatusContext)
    (hperm : sc₁.Packages.Perm sc₂.Packages) :
    (sc₁.Names lower).map (ToLower lower) = (sc₂.Names lower).map (ToLower lower) ∧
      ((∀ a ∈ sc₁.Packages.keys, ∀ b ∈ sc₁.Packages.keys,
          ToLower lower a = ToLower lower b → a = b) →
        sc₁.Names lower = sc₂.Names lower) := by
  have hkeys : sc₁.Packages.keys.Perm sc₂.Packages.keys := hperm.map Prod.fst
  have hlow : (sc₁.Names lower).map (ToLower lower) =
      (sc₂.Names lower).map (ToLower lower) := by
    rw [Names_eq, Names_eq]
    exact CiAsc_lower_perm _ _ hkeys
  refine ⟨hlow, fun hinj => ?_⟩
  apply eq_of_map_eq_of_injOn (ToLower lower) _ _ _ hlow
  intro a ha b hb hab
  have ha' : a ∈ sc₁.Packages.keys := by
    rw [Names_eq] at ha
    exact (CiAsc_perm _).mem_iff.mp ha
  have hb' : b ∈ sc₁.Packages.keys := by
    rw [Names_eq] at hb
    exact hkeys.mem_iff.mpr ((CiAsc_perm _).mem_iff.mp hb)
  exact hinj a ha' b hb' hab

/-- Witness of C11, amended: "zeta" and "Alpha" inserted in the two orders give the same
sequence of names. -/
theorem Names_iteration_order_witness :
    ((StatusContext.Add { Packages := [] } (emptyDescriptor "zeta")).Add
        (emptyDescriptor "Alpha")).Names latin1ToLower =
      ((StatusContext.Add { Packages := [] } (emptyDescriptor "Alpha")).Add
        (emptyDescriptor "zeta")).Names latin1ToLower :=
  (Names_iteration_order latin1ToLower
    ((StatusContext.Add { Packages := [] } (emptyDescriptor "zeta")).Add
      (emptyDescriptor "Alpha"))
    ((StatusContext.Add { Packages := [] } (emptyDescriptor "Alpha")).Add
      (emptyDescriptor "zeta"))
    (by decide)).2 (by decide)

/-! ## Lemmas relating `GetDeps` and `extractRelease` -/

theorem extractRelease_of_stored (sc : StatusContext) (d : toolDependency) (r : ToolRelease)
    (h : storedRelease sc d = some r) : d.extractRelease sc = (some r, none) := by
  obtain ⟨pkg, tool, hp, ht, hr⟩ := (storedRelease_eq_some_iff sc d r).mp h
  simp [toolDependency.extractRelease, toolDependency.extractTool, hp, ht, hr]

theorem edge_failure_cases (sc : StatusContext) (d : toolDependency)
    (h : storedRelease sc d = none) :
    (sc.Packages.get d.ToolPackager = none ∧
      GetDeps.loop sc [d] [] = (none, some ("Package " ++ d.ToolPackager ++ " not found")) ∧
      d.extractTool sc = (none, some "Package not found") ∧
      d.extractRelease sc = (none, some "Package not found")) ∨
    (∃ pkg, sc.Packages.get d.ToolPackager = some pkg ∧ pkg.Tools.get d.ToolName = none ∧
      GetDeps.loop sc [d] [] = (none, some ("Tool " ++ d.ToolName ++ " not found")) ∧
      d.extractTool sc = (none, some "Tool not found") ∧
      d.extractRelease sc = (none, some "Tool not found")) ∨
    (∃ pkg tool, sc.Packages.get d.ToolPackager = some pkg ∧
      pkg.Tools.get d.ToolName = some tool ∧ tool.Releases.get d.ToolVersion = none ∧
      GetDeps.loop sc [d] [] =
        (none, some ("Tool version " ++ d.ToolVersion ++ " not found")) ∧
      d.extractTool sc = (some tool, none) ∧
      d.extractRelease sc = (none, some "Release Not Found")) := by
  unfold storedRelease at h
  cases hp : sc.Packages.get d.ToolPackager with
  | none =>
    left
    simp [GetDeps.loop, toolDependency.extractRelease, toolDependency.extractTool, hp]
  | some pkg =>
    cases ht : pkg.Tools.get d.ToolName with
    | none =>
      right; left
      exact ⟨pkg, rfl, ht, by
        simp [GetDeps.loop, toolDependency.extractRelease, toolDependency.extractTool, hp, ht]⟩
    | some tool =>
      cases hr : tool.Releases.get d.ToolVersion with
      | none =>
        right; right
        exact ⟨pkg, tool, rfl, ht, hr, by
          simp [GetDeps.loop, toolDependency.extractRelease, toolDependency.extractTool,
            hp, ht, hr]⟩
      | some r => simp [hp, ht, hr] at h

theorem extractRelease_success_iff (sc : StatusContext) (d : toolDependency) (r : ToolRelease) :
    d.extractRelease sc = (some r, none) ↔ storedRelease sc d = some r := by
  constructor
  · intro h
    cases hs : storedRelease sc d with
    | some r' =>
      rw [extractRelease_of_stored sc d r' hs] at h
      simp at h
      rw [h]
    | none =>
      rcases edge_failure_cases sc d hs with ⟨_, _, _, he⟩ | ⟨_, _, _, _, _, he⟩ |
        ⟨_, _, _, _, _, _, _, he⟩ <;> rw [he] at h <;> simp at h
  · exact extractRelease_of_stored sc d r

theorem GetDeps.loop_single_failure (sc : StatusContext) (d : toolDependency)
    (h : storedRelease sc d = none) : ∃ msg, GetDeps.loop sc [d] [] = (none, some msg) := by
  rcases edge_failure_cases sc d h with ⟨_, hl, _⟩ | ⟨_, _, _, hl, _⟩ | ⟨_, _, _, _, _, hl, _⟩
  · exact ⟨_, hl⟩
  · exact ⟨_, hl⟩
  · exact ⟨_, hl⟩

theorem GetDeps.loop_cases (sc : StatusContext) (deps : List toolDependency) :
    ((∀ d ∈ deps, (storedRelease sc d).isSome = true) ∧
      ∀ ret, GetDeps.loop sc deps ret = (some (ret ++ resolvedEdges sc deps), none)) ∨
    ((∃ d ∈ deps, storedRelease sc d = none) ∧
      ∃ msg, ∀ ret, GetDeps.loop sc deps ret = (none, some msg)) := by
  induction deps with
  | nil =>
    left
    refine ⟨fun d hd => ?_, fun ret => ?_⟩
    · cases hd
    · simp [GetDeps.loop, resolvedEdges]
  | cons d rest ih =>
    cases hs : storedRelease sc d with
    | none =>
      right
      obtain ⟨msg, hmsg⟩ := GetDeps.loop_single_failure sc d hs
      refine ⟨⟨d, List.mem_cons_self _ _, hs⟩, msg, fun ret => ?_⟩
      rw [GetDeps.loop_unresolved sc d rest ret hs, hmsg]
    | some r =>
      rcases ih with ⟨hall, hret⟩ | ⟨⟨e, he, hes⟩, msg, hmsg⟩
      · left
        refine ⟨?_, fun ret => ?_⟩
        · intro e he
          rcases List.mem_cons.mp he with rfl | he'
          · rw [hs]; rfl
          · exact hall e he'
        · rw [GetDeps.loop_resolved sc d r rest ret hs, hret]
          simp [resolvedEdges, List.filterMap_cons, hs]
      · right
        refine ⟨⟨e, List.mem_cons_of_mem _ he, hes⟩, msg, fun ret => ?_⟩
        rw [GetDeps.loop_resolved sc d r rest ret hs, hmsg]

theorem GetDeps.loop_failure_edge (sc : StatusContext) (deps : List toolDependency)
    (ret : List CoreDependency) (msg : String)
    (h : GetDeps.loop sc deps ret = (none, some msg)) :
    ∃ (k : Nat) (d : toolDependency), deps[k]? = some d ∧
      (∀ (i : Nat) (e : toolDependency), i < k → deps[i]? = some e →
        ∃ r, storedRelease sc e = some r) ∧
      storedRelease sc d = none ∧ GetDeps.loop sc [d] [] = (none, some msg) := by
  induction deps generalizing ret with
  | nil => simp [GetDeps.loop] at h
  | cons d rest ih =>
    cases hs : storedRelease sc d with
    | none =>
      refine ⟨0, d, by simp, fun i e hi _ => absurd hi (Nat.not_lt_zero i), hs, ?_⟩
      rw [← GetDeps.loop_unresolved sc d rest ret hs]
      exact h
    | some r =>
      rw [GetDeps.loop_resolved sc d r rest ret hs] at h
      obtain ⟨k, e, hk, hpre, hes, hl⟩ := ih _ h
      refine ⟨k + 1, e, by simpa using hk, ?_, hes, hl⟩
      intro i x hi hx
      cases i with
      | zero =>
        simp at hx
        subst hx
        exact ⟨r, hs⟩
      | succ j =>
        simp at hx
        exact hpre j x (Nat.lt_of_succ_lt_succ hi) hx

theorem GetDeps.loop_append_eq (sc : StatusContext) (a b : List toolDependency)
    (ret : List CoreDependency) :
    GetDeps.loop sc (a ++ b) ret =
      match GetDeps.loop sc a ret with
      | (some x, _) => GetDeps.loop sc b x
      | (none, e) => (none, e) := by
  induction a generalizing ret with
  | nil => simp [GetDeps.loop]
  | cons d a ih =>
    cases hs : storedRelease sc d with
    | none =>
      obtain ⟨msg, hmsg⟩ := GetDeps.loop_single_failure sc d hs
      rw [List.cons_append, GetDeps.loop_unresolved sc d (a ++ b) ret hs,
        GetDeps.loop_unresolved sc d a ret hs, hmsg]
    | some r =>
      rw [List.cons_append, GetDeps.loop_resolved sc d r (a ++ b) ret hs,
        GetDeps.loop_resolved sc d r a ret hs]
      exact ih _

theorem mentions_infix (a name b : String) : mentions (a ++ name ++ b) name = true := by
  unfold mentions
  rw [decide_eq_true_iff]
  exact ⟨a.data, b.data, by simp [String.data_append]⟩

theorem extractRelease_fst (sc : StatusContext) (d : toolDependency) :
    (d.extractRelease sc).1 = storedRelease sc d := by
  cases hs : storedRelease sc d with
  | some r => rw [extractRelease_of_stored sc d r hs]
  | none =>
    rcases edge_failure_cases sc d hs with ⟨_, _, _, he⟩ | ⟨_, _, _, _, _, he⟩ |
      ⟨_, _, _, _, _, _, _, he⟩ <;> rw [he]

theorem resolvedEdges_map_some (sc : StatusContext) (deps : List toolDependency)
    (h : ∀ d ∈ deps, (storedRelease sc d).isSome = true) :
    (resolvedEdges sc deps).map some =
      deps.map fun d => (d.extractRelease sc).1.map fun r => CoreDependency.mk d.ToolName r := by
  induction deps with
  | nil => rfl
  | cons d deps ih =>
    obtain ⟨r, hr⟩ := Option.isSome_iff_exists.mp (h d (List.mem_cons_self _ _))
    have ih' := ih (fun e he => h e (List.mem_cons_of_mem _ he))
    simp only [resolvedEdges, extractRelease_fst] at ih'
    simp only [resolvedEdges, List.filterMap_cons, hr, Option.map_some', List.map_cons,
      extractRelease_fst]
    rw [ih']

/-! ## Error messages -/

/-- C12: on the catalog of the scenario, `extractTool` and `extractRelease` answer the
absent packager "esp" with "Package not found", the absent tool "bossac" with
"Tool not found" and the absent version "9.9" with "Release Not Found": none of the
messages holds the missing name, where `GetDeps`, on the same three dependencies,
names it. -/
theorem extractRelease_message_lacks_identity :
    (arduinoCatalog.GetDeps (some (coreRelease [⟨"esp", "avr-gcc", "1.0"⟩])) =
        (none, some "Package esp not found") ∧
      mentions "Package esp not found" "esp" = true ∧
      arduinoCatalog.GetDeps (some (coreRelease [⟨"arduino", "bossac", "1.0"⟩])) =
        (none, some "Tool bossac not found") ∧
      mentions "Tool bossac not found" "bossac" = true ∧
      arduinoCatalog.GetDeps (some (coreRelease [⟨"arduino", "avr-gcc", "9.9"⟩])) =
        (none, some "Tool version 9.9 not found") ∧
      mentions "Tool version 9.9 not found" "9.9" = true) ∧
    (arduinoCatalog.Packages.get "esp" = none ∧
      toolDependency.extractTool ⟨"esp", "avr-gcc", "1.0"⟩ arduinoCatalog =
        (none, some "Package not found") ∧
      toolDependency.extractRelease ⟨"esp", "avr-gcc", "1.0"⟩ arduinoCatalog =
        (none, some "Package not found") ∧
      mentions "Package not found" "esp" = false) ∧
    (toolDependency.extractTool ⟨"arduino", "bossac", "1.0"⟩ arduinoCatalog =
        (none, some "Tool not found") ∧
      toolDependency.extractRelease ⟨"arduino", "bossac", "1.0"⟩ arduinoCatalog =
        (none, some "Tool not found") ∧
      mentions "Tool not found" "bossac" = false) ∧
    (toolDependency.extractRelease ⟨"arduino", "avr-gcc", "9.9"⟩ arduinoCatalog =
        (none, some "Release Not Found") ∧
      mentions "Release Not Found" "9.9" = false) :=
  ⟨⟨by decide, by decide, by decide, by decide, by decide, by decide⟩,
    ⟨by decide, by decide, by decide, by decide⟩, ⟨by decide, by decide, by decide⟩,
    ⟨by decide, by decide⟩⟩

/-- Messages of the two resolution paths. A failure of `GetDeps` on a non-nil release
names the missing identity of the first dependency that does not resolve: its message
holds the packager when the package is absent, the tool name when the tool is absent,
the version when the version is absent. The errors of `extractTool` and
`extractRelease` are built from the three constant texts. -/
theorem failure_messages (sc : StatusContext) :
    (∀ (release : Release) (msg : String), sc.GetDeps (some release) = (none, some msg) →
      ∃ (k : Nat) (d : toolDependency), release.Dependencies[k]? = some d ∧
        (∀ (i : Nat) (e : toolDependency), i < k → release.Dependencies[i]? = some e →
          ∃ r, storedRelease sc e = some r) ∧
        ((sc.Packages.get d.ToolPackager = none ∧ mentions msg d.ToolPackager = true) ∨
          (∃ pkg, sc.Packages.get d.ToolPackager = some pkg ∧
            pkg.Tools.get d.ToolName = none ∧ mentions msg d.ToolName = true) ∨
          (∃ pkg tool, sc.Packages.get d.ToolPackager = some pkg ∧
            pkg.Tools.get d.ToolName = some tool ∧
            tool.Releases.get d.ToolVersion = none ∧
            mentions msg d.ToolVersion = true))) ∧
    (∀ (d : toolDependency) (err : String), (d.extractTool sc).2 = some err →
      (sc.Packages.get d.ToolPackager = none ∧ err = "Package not found") ∨
        (∃ pkg, sc.Packages.get d.ToolPackager = some pkg ∧
          pkg.Tools.get d.ToolName = none ∧ err = "Tool not found")) ∧
    (∀ (d : toolDependency) (err : String), (d.extractRelease sc).2 = some err →
      (sc.Packages.get d.ToolPackager = none ∧ err = "Package not found") ∨
        (∃ pkg, sc.Packages.get d.ToolPackager = some pkg ∧
          pkg.Tools.get d.ToolName = none ∧ err = "Tool not found") ∨
        (∃ pkg tool, sc.Packages.get d.ToolPackager = some pkg ∧
          pkg.Tools.get d.ToolName = some tool ∧
          tool.Releases.get d.ToolVersion = none ∧ err = "Release Not Found")) := by
  refine ⟨?_, ?_, ?_⟩
  · intro release msg h
    obtain ⟨k, d, hk, hpre, hs, hl⟩ :=
      GetDeps.loop_failure_edge sc release.Dependencies [] msg h
    refine ⟨k, d, hk, hpre, ?_⟩
    rcases edge_failure_cases sc d hs with ⟨hp, hl', _⟩ | ⟨pkg, hp, ht, hl', _⟩ |
      ⟨pkg, tool, hp, ht, hr, hl', _⟩
    · left
      rw [hl] at hl'
      have hmsg : msg = "Package " ++ d.ToolPackager ++ " not found" := by simpa using hl'
      exact ⟨hp, by rw [hmsg]; exact mentions_infix _ _ _⟩
    · right; left
      rw [hl] at hl'
      have hmsg : msg = "Tool " ++ d.ToolName ++ " not found" := by simpa using hl'
      exact ⟨pkg, hp, ht, by rw [hmsg]; exact mentions_infix _ _ _⟩
    · right; right
      rw [hl] at hl'
      have hmsg : msg = "Tool version " ++ d.ToolVersion ++ " not found" := by
        simpa using hl'
      exact ⟨pkg, tool, hp, ht, hr, by rw [hmsg]; exact mentions_infix _ _ _⟩
  · intro d err h
    cases hp : sc.Packages.get d.ToolPackager with
    | none =>
      left
      simp [toolDependency.extractTool, hp] at h
      exact ⟨rfl, h.symm⟩
    | some pkg =>
      right
      cases ht : pkg.Tools.get d.ToolName with
      | none =>
        simp [toolDependency.extractTool, hp, ht] at h
        exact ⟨pkg, rfl, ht, h.symm⟩
      | some tool => simp [toolDependency.extractTool, hp, ht] at h
  · intro d err h
    cases hs : storedRelease sc d with
    | some r =>
      rw [extractRelease_of_stored sc d r hs] at h
      cases h
    | none =>
      rcases edge_failure_cases sc d hs with ⟨hp, _, _, he⟩ | ⟨pkg, hp, ht, _, _, he⟩ |
        ⟨pkg, tool, hp, ht, hr, _, _, he⟩
      · left
        rw [he] at h
        exact ⟨hp, by simpa using h.symm⟩
      · right; left
        rw [he] at h
        exact ⟨pkg, hp, ht, by simpa using h.symm⟩
      · right; right
        rw [he] at h
        exact ⟨pkg, tool, hp, ht, hr, by simpa using h.symm⟩

/-! ## `GetDeps` against `extractRelease` -/

/-- C14: `GetDeps` does on each edge, in declaration order, what `extractRelease` does.
It succeeds exactly when `extractRelease` succeeds on every declared dependency, and
then its result lists, in order, the pair of the tool name of each dependency with the
release `extractRelease` returns for it. Otherwise it fails, and at the first dependency
on which `extractRelease` fails the two errors are of the same kind: package, tool or
version missing. -/
theorem GetDeps_refines_extractRelease (sc : StatusContext) (release : Release) :
    ((∃ ret, sc.GetDeps (some release) = (some ret, none)) ↔
      ∀ d ∈ release.Dependencies, ∃ r, d.extractRelease sc = (some r, none)) ∧
    (∀ ret, sc.GetDeps (some release) = (some ret, none) →
      ret.map some = release.Dependencies.map fun d =>
        (d.extractRelease sc).1.map fun r => CoreDependency.mk d.ToolName r) ∧
    ((∃ ret, sc.GetDeps (some release) = (some ret, none)) ∨
      ∃ msg, sc.GetDeps (some release) = (none, some msg)) ∧
    (∀ msg, sc.GetDeps (some release) = (none, some msg) →
      ∃ (k : Nat) (d : toolDependency), release.Dependencies[k]? = some d ∧
        (∀ (i : Nat) (e : toolDependency), i < k → release.Dependencies[i]? = some e →
          ∃ r, e.extractRelease sc = (some r, none)) ∧
        ((d.extractRelease sc = (none, some "Package not found") ∧
            msg = "Package " ++ d.ToolPackager ++ " not found") ∨
          (d.extractRelease sc = (none, some "Tool not found") ∧
            msg = "Tool " ++ d.ToolName ++ " not found") ∨
          (d.extractRelease sc = (none, some "Release Not Found") ∧
            msg = "Tool version " ++ d.ToolVersion ++ " not found"))) := by
  have hG : sc.GetDeps (some release) = GetDeps.loop sc release.Dependencies [] := rfl
  refine ⟨?_, ?_, ?_, ?_⟩
  · rcases GetDeps.loop_cases sc release.Dependencies with ⟨hall, hret⟩ | ⟨⟨e, he, hes⟩, msg, hmsg⟩
    · refine ⟨fun _ d hd => ?_, fun _ => ⟨_, hG.trans (hret [])⟩⟩
      obtain ⟨r, hr⟩ := Option.isSome_iff_exists.mp (hall d hd)
      exact ⟨r, extractRelease_of_stored sc d r hr⟩
    · constructor
      · rintro ⟨ret, hret⟩
        rw [hG, hmsg] at hret
        simp at hret
      · intro hall
        obtain ⟨r, hr⟩ := hall e he
        rw [(extractRelease_success_iff sc e r).mp hr] at hes
        cases hes
  · intro ret hret
    rcases GetDeps.loop_cases sc release.Dependencies with ⟨hall, hl⟩ | ⟨_, msg, hmsg⟩
    · rw [hG, hl] at hret
      have : ret = resolvedEdges sc release.Dependencies := by simpa using hret.symm
      rw [this]
      exact resolvedEdges_map_some sc _ hall
    · rw [hG, hmsg] at hret
      simp at hret
  · rcases GetDeps.loop_cases sc release.Dependencies with ⟨_, hl⟩ | ⟨_, msg, hmsg⟩
    · exact Or.inl ⟨_, hG.trans (hl [])⟩
    · exact Or.inr ⟨msg, hG.trans (hmsg [])⟩
  · intro msg h
    obtain ⟨k, d, hk, hpre, hs, hl⟩ :=
      GetDeps.loop_failure_edge sc release.Dependencies [] msg h
    refine ⟨k, d, hk, ?_, ?_⟩
    · intro i e hi he
      obtain ⟨r, hr⟩ := hpre i e hi he
      exact ⟨r, extractRelease_of_stored sc e r hr⟩
    · rcases edge_failure_cases sc d hs with ⟨_, hl', _, he⟩ | ⟨_, _, _, hl', _, he⟩ |
        ⟨_, _, _, _, _, hl', _, he⟩
      · left
        rw [hl] at hl'
        exact ⟨he, by simpa using hl'⟩
      · right; left
        rw [hl] at hl'
        exact ⟨he, by simpa using hl'⟩
      · right; right
        rw [hl] at hl'
        exact ⟨he, by simpa using hl'⟩

/-- Witness of C14: on the catalog of the scenario, the release declaring "1.0", then
"9.9", then "2.0" of avr-gcc fails in `GetDeps` with the error on the version "9.9",
its second dependency, on which `extractRelease` fails with "Release Not Found". -/
theorem GetDeps_refines_extractRelease_witness :
    ∃ (k : Nat) (d : toolDependency),
      (coreRelease [⟨"arduino", "avr-gcc", "1.0"⟩, ⟨"arduino", "avr-gcc", "9.9"⟩,
        ⟨"arduino", "avr-gcc", "2.0"⟩]).Dependencies[k]? = some d ∧
        (∀ (i : Nat) (e : toolDependency), i < k →
          (coreRelease [⟨"arduino", "avr-gcc", "1.0"⟩, ⟨"arduino", "avr-gcc", "9.9"⟩,
            ⟨"arduino", "avr-gcc", "2.0"⟩]).Dependencies[i]? = some e →
          ∃ r, e.extractRelease arduinoCatalog = (some r, none)) ∧
        ((d.extractRelease arduinoCatalog = (none, some "Package not found") ∧
            "Tool version 9.9 not found" = "Package " ++ d.ToolPackager ++ " not found") ∨
          (d.extractRelease arduinoCatalog = (none, some "Tool not found") ∧
            "Tool version 9.9 not found" = "Tool " ++ d.ToolName ++ " not found") ∨
          (d.extractRelease arduinoCatalog = (none, some "Release Not Found") ∧
            "Tool version 9.9 not found" =
              "Tool version " ++ d.ToolVersion ++ " not found")) :=
  (GetDeps_refines_extractRelease arduinoCatalog
    (coreRelease [⟨"arduino", "avr-gcc", "1.0"⟩, ⟨"arduino", "avr-gcc", "9.9"⟩,
      ⟨"arduino", "avr-gcc", "2.0"⟩])).2.2.2 "Tool version 9.9 not found" (by decide)

/-! ## `GetDeps` on a concatenation -/

/-- C17: for releases declaring `a`, `b` and `a ++ b`, `GetDeps` succeeds on the third
exactly when it succeeds on the first two, and its result is then the concatenation of
their results; when it fails on `a`, it fails on `a ++ b` with the same error. When it
succeeds on `a` and fails on `b`, it fails on `a ++ b` with the error of `b`. -/
theorem GetDeps_append (sc : StatusContext) (ra rb rab : Release)
    (h : rab.Dependencies = ra.Dependencies ++ rb.Dependencies) :
    ((∃ ret, sc.GetDeps (some rab) = (some ret, none)) ↔
      (∃ x, sc.GetDeps (some ra) = (some x, none)) ∧
        ∃ y, sc.GetDeps (some rb) = (some y, none)) ∧
    (∀ x y, sc.GetDeps (some ra) = (some x, none) → sc.GetDeps (some rb) = (some y, none) →
      sc.GetDeps (some rab) = (some (x ++ y), none)) ∧
    (∀ e, sc.GetDeps (some ra) = (none, some e) →
      sc.GetDeps (some rab) = (none, some e)) ∧
    (∀ x e, sc.GetDeps (some ra) = (some x, none) → sc.GetDeps (some rb) = (none, some e) →
      sc.GetDeps (some rab) = (none, some e)) := by
  have hab : sc.GetDeps (some rab) =
      match GetDeps.loop sc ra.Dependencies [] with
      | (some x, _) => GetDeps.loop sc rb.Dependencies x
      | (none, e) => (none, e) := by
    show GetDeps.loop sc rab.Dependencies [] = _
    rw [h]
    exact GetDeps.loop_append_eq sc _ _ []
  have hGa : sc.GetDeps (some ra) = GetDeps.loop sc ra.Dependencies [] := rfl
  have hGb : sc.GetDeps (some rb) = GetDeps.loop sc rb.Dependencies [] := rfl
  rw [hGa, hGb, hab]
  rcases GetDeps.loop_cases sc ra.Dependencies with ⟨_, ha⟩ | ⟨_, ma, ha⟩ <;>
    rcases GetDeps.loop_cases sc rb.Dependencies with ⟨_, hb⟩ | ⟨_, mb, hb⟩ <;>
    simp [ha, hb]

/-- Witness of C17: on the catalog of the scenario, the dependencies "1.0" and "2.0" of
avr-gcc, declared one after the other, resolve to the two results one after the
other. -/
theorem GetDeps_append_witness :
    arduinoCatalog.GetDeps
        (some (coreRelease [⟨"arduino", "avr-gcc", "1.0"⟩, ⟨"arduino", "avr-gcc", "2.0"⟩])) =
      (some ([{ ToolName := "avr-gcc", Release := avrGcc10 }] ++
        [{ ToolName := "avr-gcc", Release := avrGcc20 }]), none) :=
  (GetDeps_append arduinoCatalog (coreRelease [⟨"arduino", "avr-gcc", "1.0"⟩])
    (coreRelease [⟨"arduino", "avr-gcc", "2.0"⟩])
    (coreRelease [⟨"arduino", "avr-gcc", "1.0"⟩, ⟨"arduino", "avr-gcc", "2.0"⟩]) rfl).2.1
    _ _ (by decide) (by decide)

/-! ## Construction of the catalog (`CreateStatusContext`) and frame of `Add` -/

theorem GoMap.mem_keys_iff_get {V : Type} (m : GoMap V) (k : String) :
    k ∈ m.keys ↔ (m.get k).isSome = true := by
  rw [← not_iff_not, ← GoMap.get_eq_none_iff]
  cases m.get k <;> simp

theorem GoMap.mem_keys_set {V : Type} (m : GoMap V) (k n : String) (v : V) :
    n ∈ (m.set k v).keys ↔ n = k ∨ n ∈ m.keys := by
  by_cases h : n = k
  · subst h
    simp [GoMap.mem_keys_iff_get, GoMap.get_set_self]
  · rw [GoMap.mem_keys_iff_get, GoMap.get_set_other m k n v h, ← GoMap.mem_keys_iff_get]
    simp [h]

theorem GoMap.set_WF {V : Type} (m : GoMap V) (k : String) (v : V) (h : m.WF) :
    (m.set k v).WF := by
  have hnot : k ∉ (m.filter (fun e => decide (e.1 ≠ k))).map Prod.fst := by
    intro hmem
    obtain ⟨e, he, hk⟩ := List.mem_map.mp hmem
    have := (List.mem_filter.mp he).2
    simp [hk] at this
  have hsub : ((m.filter (fun e => decide (e.1 ≠ k))).map Prod.fst).Sublist (m.map Prod.fst) :=
    List.Sublist.map _ (List.filter_sublist m)
  exact List.nodup_cons.mpr ⟨hnot, List.Nodup.sublist hsub h⟩

theorem foldl_Add_get_other (ps : List indexPackage) (sc : StatusContext) (n : String)
    (h : ∀ p ∈ ps, p.Name ≠ n) :
    (ps.foldl (fun packages packageManager => packages.Add packageManager) sc).Packages.get n =
      sc.Packages.get n := by
  induction ps generalizing sc with
  | nil => rfl
  | cons p ps ih =>
    rw [List.foldl_cons, ih _ (fun q hq => h q (List.mem_cons_of_mem _ hq))]
    exact GoMap.get_set_other _ _ _ _ (fun c => h p (List.mem_cons_self _ _) c.symm)

theorem foldl_Add_keys (ps : List indexPackage) (sc : StatusContext) (n : String) :
    n ∈ (ps.foldl (fun packages packageManager => packages.Add packageManager)
        sc).Packages.keys ↔
      n ∈ sc.Packages.keys ∨ ∃ p ∈ ps, p.Name = n := by
  induction ps generalizing sc with
  | nil => simp
  | cons p ps ih =>
    rw [List.foldl_cons, ih, StatusContext.Add, GoMap.mem_keys_set]
    constructor
    · rintro ((h | h) | ⟨q, hq, hn⟩)
      · exact Or.inr ⟨p, List.mem_cons_self _ _, h.symm⟩
      · exact Or.inl h
      · exact Or.inr ⟨q, List.mem_cons_of_mem _ hq, hn⟩
    · rintro (h | ⟨q, hq, hn⟩)
      · exact Or.inl (Or.inr h)
      · rcases List.mem_cons.mp hq with rfl | hq'
        · exact Or.inl (Or.inl hn.symm)
        · exact Or.inr ⟨q, hq', hn⟩

theorem foldl_Add_WF (ps : List indexPackage) (sc : StatusContext) (h : sc.Packages.WF) :
    (ps.foldl (fun packages packageManager => packages.Add packageManager) sc).Packages.WF := by
  induction ps generalizing sc with
  | nil => exact h
  | cons p ps ih => exact ih _ (GoMap.set_WF _ _ _ h)

/-- C13: `CreateStatusContext` returns a nil error for every index; the keys of the
catalog it returns are the names occurring in the index, no key twice, and each name
maps to the package extracted from the last descriptor carrying that name. -/
theorem CreateStatusContext_never_fails (index : Index) :
    index.CreateStatusContext.2 = none ∧
      (∀ n : String, n ∈ index.CreateStatusContext.1.Packages.keys ↔
        ∃ p ∈ index.Packages, p.Name = n) ∧
      index.CreateStatusContext.1.Packages.WF ∧
      (∀ (pre post : List indexPackage) (p : indexPackage),
        index.Packages = pre ++ p :: post → (∀ q ∈ post, q.Name ≠ p.Name) →
        index.CreateStatusContext.1.Packages.get p.Name = some p.extractPackage) ∧
      (∀ n : String, index.CreateStatusContext.1.Packages.get n =
        (index.Packages.reverse.find? fun p => decide (p.Name = n)).map
          fun p => p.extractPackage) := by
  have hlast : ∀ (pre post : List indexPackage) (p : indexPackage),
      index.Packages = pre ++ p :: post → (∀ q ∈ post, q.Name ≠ p.Name) →
      index.CreateStatusContext.1.Packages.get p.Name = some p.extractPackage := by
    intro pre post p hsplit hpost
    simp only [Index.CreateStatusContext, hsplit, List.foldl_append, List.foldl_cons]
    rw [foldl_Add_get_other post _ p.Name hpost]
    exact GoMap.get_set_self _ _ _
  have hkeys : ∀ n : String, n ∈ index.CreateStatusContext.1.Packages.keys ↔
      ∃ p ∈ index.Packages, p.Name = n := by
    intro n
    simp only [Index.CreateStatusContext]
    rw [foldl_Add_keys]
    simp [GoMap.keys]
  refine ⟨rfl, hkeys, foldl_Add_WF _ _ List.nodup_nil, hlast, ?_⟩
  intro n
  cases hf : index.Packages.reverse.find? (fun p => decide (p.Name = n)) with
  | none =>
    have hnone : ∀ p ∈ index.Packages, p.Name ≠ n := by
      intro p hp
      have := List.find?_eq_none.mp hf p (List.mem_reverse.mpr hp)
      simpa using this
    simp only [Index.CreateStatusContext, Option.map_none']
    rw [foldl_Add_get_other _ _ n hnone]
    rfl
  | some p =>
    obtain ⟨hpn, as, bs, hsplit, hbefore⟩ := List.find?_eq_some.mp hf
    have hname : p.Name = n := by simpa using hpn
    have hsplit' : index.Packages = bs.reverse ++ p :: as.reverse := by
      have := congrArg List.reverse hsplit
      simpa using this
    have hpost : ∀ q ∈ as.reverse, q.Name ≠ p.Name := by
      intro q hq
      have := hbefore q (List.mem_reverse.mp hq)
      rw [hname]
      simpa using this
    rw [Option.map_some', ← hname]
    exact hlast _ _ p hsplit' hpost

/-- Witness of C13: the index holds two descriptors named "arduino"; the catalog maps
"arduino" to the package extracted from the second one. -/
theorem CreateStatusContext_never_fails_witness :
    (Index.CreateStatusContext
        { Packages := [arduinoDescriptor, arduinoDescriptor2] }).1.Packages.get "arduino" =
      some arduinoDescriptor2.extractPackage :=
  (CreateStatusContext_never_fails
    { Packages := [arduinoDescriptor, arduinoDescriptor2] }).2.2.2.1
    [arduinoDescriptor] [] arduinoDescriptor2 rfl (fun q hq => by cases hq)

/-- C16: `Add` of a descriptor `p` leaves every name other than `p.Name` as it was: the
entry under it, or its absence, is the same, and a dependency whose packager is not
`p.Name` resolves to the same result before and after. -/
theorem Add_frame (sc : StatusContext) (p : indexPackage) :
    (∀ n : String, n ≠ p.Name → (sc.Add p).Packages.get n = sc.Packages.get n) ∧
      (∀ n : String, n ≠ p.Name →
        (n ∈ (sc.Add p).Packages.keys ↔ n ∈ sc.Packages.keys)) ∧
      (∀ d : toolDependency, d.ToolPackager ≠ p.Name →
        d.extractTool (sc.Add p) = d.extractTool sc ∧
          d.extractRelease (sc.Add p) = d.extractRelease sc) := by
  have hget : ∀ n : String, n ≠ p.Name → (sc.Add p).Packages.get n = sc.Packages.get n :=
    fun n hn => GoMap.get_set_other _ _ _ _ hn
  refine ⟨hget, ?_, ?_⟩
  · intro n hn
    rw [GoMap.mem_keys_iff_get, GoMap.mem_keys_iff_get, hget n hn]
  · intro d hd
    simp only [toolDependency.extractRelease, toolDependency.extractTool, hget _ hd]
    exact ⟨trivial, trivial⟩

/-- Witness of C16: inserting the package "esp" into the catalog of the scenario leaves
the resolution of ("arduino", "avr-gcc", "1.0") as it was. -/
theorem Add_frame_witness :
    toolDependency.extractRelease ⟨"arduino", "avr-gcc", "1.0"⟩
        (arduinoCatalog.Add (emptyDescriptor "esp")) =
      toolDependency.extractRelease ⟨"arduino", "avr-gcc", "1.0"⟩ arduinoCatalog :=
  ((Add_frame arduinoCatalog (emptyDescriptor "esp")).2.2 ⟨"arduino", "avr-gcc", "1.0"⟩
    (by decide)).2

/-! ## Rendering of a core dependency (`String`) -/

theorem dropWhile_eq_self_of_head {α : Type} (p : α → Bool) (l : List α)
    (h : ∀ c ∈ l.head?, p c = false) : l.dropWhile p = l := by
  cases l with
  | nil => rfl
  | cons a l =>
    have ha : p a = false := h a (by simp)
    simp [List.dropWhile, ha]

theorem head?_dropWhile_false {α : Type} (p : α → Bool) (l : List α) :
    ∀ c ∈ (l.dropWhile p).head?, p c = false := by
  intro c hc
  have h := List.head?_dropWhile_not p l
  rw [Option.mem_def] at hc
  rw [hc] at h
  exact h

theorem trimSpaceChars_append_space (l : List Char) (c : Char) (hc : isSpace c = true) :
    trimSpaceChars (l ++ [c]) = trimSpaceChars l := by
  unfold trimSpaceChars
  rw [List.dropWhile_append]
  by_cases hemp : (List.dropWhile isSpace l).isEmpty = true
  · have hnil : List.dropWhile isSpace l = [] := List.isEmpty_iff.mp hemp
    simp [hnil, List.dropWhile, hc]
  · simp only [hemp, if_false, Bool.false_eq_true, List.reverse_append, List.reverse_cons,
      List.reverse_nil, List.nil_append, List.singleton_append]
    rw [List.dropWhile_cons, if_pos hc]

theorem trimSpaceChars_last (l : List Char) :
    ∀ c ∈ (trimSpaceChars l).getLast?, isSpace c = false := by
  unfold trimSpaceChars
  rw [List.getLast?_reverse]
  exact head?_dropWhile_false isSpace _

theorem trimSpaceChars_head (l : List Char) :
    ∀ c ∈ (trimSpaceChars l).head?, isSpace c = false := by
  intro c hc
  unfold trimSpaceChars at hc
  have hsuf : List.dropWhile isSpace (List.dropWhile isSpace l).reverse <:+
      (List.dropWhile isSpace l).reverse := List.dropWhile_suffix isSpace
  have hpre : (List.dropWhile isSpace (List.dropWhile isSpace l).reverse).reverse <+:
      List.dropWhile isSpace l := by
    have := List.reverse_prefix.mpr hsuf
    simpa using this
  obtain ⟨t, ht⟩ := hpre
  apply head?_dropWhile_false isSpace l c
  rw [← ht]
  cases hR : (List.dropWhile isSpace (List.dropWhile isSpace l).reverse).reverse with
  | nil => rw [hR] at hc; simp at hc
  | cons a R =>
    rw [hR] at hc
    simpa using hc

theorem trimSpaceChars_id (l : List Char) (hhead : ∀ c ∈ l.head?, isSpace c = false)
    (hlast : ∀ c ∈ l.getLast?, isSpace c = false) : trimSpaceChars l = l := by
  unfold trimSpaceChars
  rw [dropWhile_eq_self_of_head isSpace l hhead,
    dropWhile_eq_self_of_head isSpace l.reverse (by rw [List.head?_reverse]; exact hlast),
    List.reverse_reverse]

theorem Sprintln_three (a b c : String) :
    (Sprintln [a, b, c]).data = (a.data ++ (" ".data ++ (b.data ++ (" ".data ++ c.data)))) ++
      [Char.ofNat 10] := by
  simp only [Sprintln, Sprintln.join, String.data_append, List.append_assoc]

/-- C18: `String` renders a core dependency as the tool name, one space, " v.", one
space and the version of the release, that is the tool name, two spaces, "v.", one
space and the version, with the white space at both ends removed and without the
newline `Sprintln` appends; when the tool name starts and the version ends with a
character that is not white space, this is the whole text. -/
theorem String_renders (cd : CoreDependency) :
    cd.String = TrimSpace (cd.ToolName ++ "  v. " ++ cd.Release.Version) ∧
      (∀ c ∈ cd.String.data.head?, isSpace c = false) ∧
      (∀ c ∈ cd.String.data.getLast?, isSpace c = false) ∧
      cd.String.data.getLast? ≠ some (Char.ofNat 10) ∧
      ((∃ c ∈ cd.ToolName.data.head?, isSpace c = false) →
        (∃ c ∈ cd.Release.Version.data.getLast?, isSpace c = false) →
        cd.String = cd.ToolName ++ "  v. " ++ cd.Release.Version) := by
  have htext : (cd.ToolName ++ "  v. " ++ cd.Release.Version).data =
      cd.ToolName.data ++ (" ".data ++ (" v.".data ++ (" ".data ++ cd.Release.Version.data))) := by
    simp only [String.data_append, List.append_assoc]
    rfl
  have hstr : cd.String = TrimSpace (cd.ToolName ++ "  v. " ++ cd.Release.Version) := by
    apply String.ext
    simp only [CoreDependency.String, TrimSpace, Sprintln_three, htext]
    exact trimSpaceChars_append_space _ _ (by decide)
  have hdata : cd.String.data =
      trimSpaceChars (cd.ToolName ++ "  v. " ++ cd.Release.Version).data := by
    rw [hstr]
    rfl
  refine ⟨hstr, ?_, ?_, ?_, ?_⟩
  · rw [hdata]
    exact trimSpaceChars_head _
  · rw [hdata]
    exact trimSpaceChars_last _
  · intro hnl
    have h := trimSpaceChars_last (cd.ToolName ++ "  v. " ++ cd.Release.Version).data
      (Char.ofNat 10) (by rw [← hdata]; exact hnl)
    exact absurd h (by decide)
  · rintro ⟨c₀, hc₀, hs₀⟩ ⟨c₁, hc₁, hs₁⟩
    rw [hstr]
    apply String.ext
    show trimSpaceChars _ = _
    apply trimSpaceChars_id
    · intro c hc
      rw [htext] at hc
      cases hn : cd.ToolName.data with
      | nil => rw [hn] at hc₀; simp at hc₀
      | cons a as =>
        rw [hn] at hc hc₀
        simp at hc hc₀
        rw [← hc, hc₀]
        exact hs₀
    · intro c hc
      rw [htext] at hc
      cases hv : cd.Release.Version.data.getLast? with
      | none => rw [hv] at hc₁; simp at hc₁
      | some z =>
        rw [hv] at hc₁
        simp only [List.getLast?_append, hv, Option.mem_def] at hc hc₁
        simp at hc hc₁
        rw [← hc, hc₁]
        exact hs₁

/-- Witness of C18: the tool "avr-gcc" with the release "1.0" renders as
"avr-gcc  v. 1.0". -/
theorem String_renders_witness :
    CoreDependency.String { ToolName := "avr-gcc", Release := avrGcc10 } = "avr-gcc  v. 1.0" :=
  ((String_renders { ToolName := "avr-gcc", Release := avrGcc10 }).2.2.2.2
    ⟨Char.ofNat 97, by decide, by decide⟩ ⟨Char.ofNat 48, by decide, by decide⟩).trans
    (by decide)

end cores
